import Mathlib

/-!
Verification of the dynamic CUDA-kernel templating/compilation cache and the
forward-scatter ("softsplat") resampling operator of `src/M2M_arch.py`
(the same code recurs in `src/GMFSS_union_arch.py`).

Modelling conventions:
* Python strings are modelled as `List Char`; `str.replace`, `str.split`,
  `str.strip` and the two regex searches used by `cuda_kernel` are translated
  into executable char-list functions below.
* Device floating-point values are modelled exactly: a finite float is a
  rational (or, for the compositor which applies `exp`, a real); a value that
  may be non-finite (the flow field, whose `isfinite` test the kernels
  perform) is an `Option` — `none` standing for NaN/±inf.
* The CUDA grid-stride loops are launched with
  `grid = ceil(n/512), block = 512`, so `blockDim.x * gridDim.x ≥ n` and each
  thread body runs for at most one `intIndex` (lemma `grid_stride_single_pass`
  below); an early `return` therefore skips exactly one element's work.
  The kernels are accordingly modelled per element, and the atomicAdd
  accumulation as an order-independent `Finset.sum`.
-/

/-- Char list of a string literal (Python strings are modelled as `List Char`). -/
def cs (s : String) : List Char := s.data

/-- The decimal digit characters (used to model Python's `str` of `int`). -/
def digChar : ℕ → Char
  | 0 => '0' | 1 => '1' | 2 => '2' | 3 => '3' | 4 => '4'
  | 5 => '5' | 6 => '6' | 7 => '7' | 8 => '8' | 9 => '9'
  | _ => '*'

/-- Decimal rendering of a natural number, fuel-driven so that it is
structurally recursive (kernel-reducible). -/
def natReprAux : ℕ → ℕ → List Char
  | 0, _ => []
  | fuel + 1, n =>
    if n < 10 then [digChar n]
    else natReprAux fuel (n / 10) ++ [digChar (n % 10)]

/-- Python's `str` of a nonnegative `int`. -/
def natRep (n : ℕ) : List Char := natReprAux (n + 1) n

/-- Python's `str` of an `int`. -/
def intRep (z : ℤ) : List Char :=
  if z < 0 then '-' :: natRep z.natAbs else natRep z.natAbs

/-- Join a list of char lists with a separator, like Python's `str.join`. -/
def joinSep (sep : List Char) : List (List Char) → List Char
  | [] => []
  | [a] => a
  | a :: b :: rest => a ++ sep ++ joinSep sep (b :: rest)

/-- Python's `str.split(sep)` for a one-character separator: always returns at
least one (possibly empty) piece. -/
def splitOn (sep : Char) : List Char → List (List Char)
  | [] => [[]]
  | c :: rest =>
    match splitOn sep rest with
    | [] => [[]]
    | h :: t => if c = sep then [] :: h :: t else (c :: h) :: t

/-- Does `p` start the list `s`? -/
def startsL : List Char → List Char → Bool
  | [], _ => true
  | _ :: _, [] => false
  | p :: ps, c₂ :: rest => p = c₂ && startsL ps rest

/-- Does `pat` occur as a contiguous sublist of `s`? -/
def containsSub : List Char → List Char → Bool
  | [], pat => pat.isEmpty
  | s@(_ :: rest), pat => startsL pat s || containsSub rest pat

/-- One fuel step bounds the recursion of `replaceAll` (Python `str.replace`
replaces every non-overlapping occurrence, scanning left to right). -/
def replaceAllAux (pat rep : List Char) : ℕ → List Char → List Char
  | 0, s => s
  | fuel + 1, s =>
    match s with
    | [] => []
    | c :: rest =>
      if startsL pat s then rep ++ replaceAllAux pat rep fuel (s.drop pat.length)
      else c :: replaceAllAux pat rep fuel rest

/-- Python's `str.replace(pat, rep)` (for the nonempty patterns used here). -/
def replaceAll (s pat rep : List Char) : List Char := replaceAllAux pat rep s.length s

/-- Python whitespace (enough for `str.strip` on kernel-template arguments). -/
def isWsChar (c : Char) : Bool := c = ' ' || c = '\t' || c = '\n' || c = '\r'

/-- Python's `str.strip()`. -/
def stripWs (s : List Char) : List Char :=
  ((s.dropWhile isWsChar).reverse.dropWhile isWsChar).reverse

/-- The brace-to-parenthesis rewriting `replace("{","(").replace("}",")")`
applied to macro arguments by `cuda_kernel`. -/
def braceToParen (s : List Char) : List Char :=
  s.map fun c => if c = '\x7b' then '(' else if c = '\x7d' then ')' else c

/-- The parenthesis scan of `cuda_kernel`'s OFFSET_/VALUE_ expansion: starting
just after the opening parenthesis at nesting depth `d`, the index of the
parenthesis that closes it (braces are not counted, exactly as in the source).
`none` models the `IndexError` Python would raise walking past the end. -/
def findClose : List Char → ℕ → Option ℕ
  | [], _ => none
  | c :: rest, d =>
    let d' := if c = '(' then d + 1 else if c = ')' then d - 1 else d
    if d' = 0 then some 0 else (findClose rest d').map (· + 1)

-- Basic facts about the string model -----------------------------------------

theorem startsL_append (p r : List Char) : startsL p (p ++ r) = true := by
  induction p with
  | nil => rfl
  | cons c ps ih => simp [startsL, ih]

theorem startsL_self (p : List Char) : startsL p p = true := by
  have := startsL_append p []
  simpa using this

theorem replaceAllAux_nil (pat rep : List Char) (fuel : ℕ) :
    replaceAllAux pat rep fuel [] = [] := by
  cases fuel <;> rfl

theorem replaceAll_self (s rep : List Char) (h : s ≠ []) : replaceAll s s rep = rep := by
  cases s with
  | nil => exact absurd rfl h
  | cons c rest =>
    show replaceAllAux _ _ ((c :: rest).length) (c :: rest) = rep
    simp only [List.length_cons, replaceAllAux, startsL_self, if_true]
    rw [show rest.length + 1 = (c :: rest).length from rfl, List.drop_length,
      replaceAllAux_nil, List.append_nil]

theorem containsSub_eq_false_startsL (s pat : List Char) (h : containsSub s pat = false) :
    startsL pat s = false := by
  cases s with
  | nil => cases pat with
    | nil => simp [containsSub, List.isEmpty] at h
    | cons p ps => rfl
  | cons c rest =>
    simp only [containsSub, Bool.or_eq_false_iff] at h
    exact h.1

theorem replaceAllAux_not_contains (pat rep : List Char) (fuel : ℕ) (s : List Char)
    (h : containsSub s pat = false) : replaceAllAux pat rep fuel s = s := by
  induction fuel generalizing s with
  | zero => rfl
  | succ fuel ih =>
    cases s with
    | nil => rfl
    | cons c rest =>
      have h1 : startsL pat (c :: rest) = false := containsSub_eq_false_startsL _ _ h
      have h2 : containsSub rest pat = false := by
        simp only [containsSub, Bool.or_eq_false_iff] at h
        exact h.2
      simp [replaceAllAux, h1, ih rest h2]

theorem replaceAll_not_contains (s pat rep : List Char) (h : containsSub s pat = false) :
    replaceAll s pat rep = s := replaceAllAux_not_contains pat rep s.length s h

theorem splitOn_ne_nil (sep : Char) (s : List Char) : splitOn sep s ≠ [] := by
  cases s with
  | nil => simp [splitOn]
  | cons c rest =>
    simp only [splitOn]
    rcases h : splitOn sep rest with _ | ⟨h', t⟩
    · simp
    · by_cases hc : c = sep <;> simp [hc]

theorem splitOn_no_sep (sep : Char) (s : List Char) (h : sep ∉ s) :
    splitOn sep s = [s] := by
  induction s with
  | nil => rfl
  | cons c rest ih =>
    have hc : c ≠ sep := fun e => h (e ▸ List.mem_cons_self c rest)
    have hrest : sep ∉ rest := fun e => h (List.mem_cons_of_mem c e)
    simp [splitOn, ih hrest, hc]

theorem splitOn_cons (sep c : Char) (rest : List Char) :
    splitOn sep (c :: rest) =
      match splitOn sep rest with
      | [] => [[]]
      | h :: t => if c = sep then [] :: h :: t else (c :: h) :: t := rfl

theorem splitOn_append (sep : Char) (u v : List Char) (h : sep ∉ u) :
    splitOn sep (u ++ sep :: v) = u :: splitOn sep v := by
  induction u with
  | nil =>
    rw [List.nil_append, splitOn_cons]
    rcases hv : splitOn sep v with _ | ⟨a, t⟩
    · exact absurd hv (splitOn_ne_nil sep v)
    · simp
  | cons c rest ih =>
    have hc : c ≠ sep := fun e => h (e ▸ List.mem_cons_self c rest)
    have hrest : sep ∉ rest := fun e => h (List.mem_cons_of_mem c e)
    rw [List.cons_append, splitOn_cons, ih hrest]
    simp [hc]

theorem dropWhile_eq_self_of (p : Char → Bool) (l : List Char)
    (h : ∀ c ∈ l, p c = false) : List.dropWhile p l = l := by
  cases l with
  | nil => rfl
  | cons c rest => simp [List.dropWhile_cons, h c (List.mem_cons_self c rest)]

theorem stripWs_of_no_ws (s : List Char) (h : ∀ c ∈ s, isWsChar c = false) :
    stripWs s = s := by
  unfold stripWs
  rw [dropWhile_eq_self_of _ _ h, dropWhile_eq_self_of, List.reverse_reverse]
  intro c hc
  exact h c (by simpa using hc)

-- Decimal rendering: value recovery, injectivity, character set ---------------

/-- Numeric value of a decimal digit character. -/
def charVal (c : Char) : ℕ := c.toNat - 48

/-- Reads a decimal digit string back into a number (proof device for the
injectivity of `natRep`). -/
def parseNum (l : List Char) : ℕ := l.foldl (fun acc c => acc * 10 + charVal c) 0

theorem parseNum_append_digit (l : List Char) (c : Char) :
    parseNum (l ++ [c]) = 10 * parseNum l + charVal c := by
  unfold parseNum
  rw [List.foldl_append]
  simp [Nat.mul_comm]

theorem charVal_digChar (d : ℕ) (h : d < 10) : charVal (digChar d) = d := by
  interval_cases d <;> decide

theorem parseNum_natReprAux (fuel n : ℕ) (h : n < fuel) :
    parseNum (natReprAux fuel n) = n := by
  induction fuel generalizing n with
  | zero => omega
  | succ fuel ih =>
    by_cases h10 : n < 10
    · simp [natReprAux, h10, parseNum, charVal_digChar n h10]
    · have hdiv : n / 10 < fuel := by
        have : n / 10 < n := Nat.div_lt_self (by omega) (by omega)
        omega
      simp only [natReprAux, h10, if_false]
      rw [parseNum_append_digit, ih _ hdiv, charVal_digChar _ (Nat.mod_lt n (by omega))]
      omega

theorem parseNum_natRep (n : ℕ) : parseNum (natRep n) = n :=
  parseNum_natReprAux (n + 1) n (Nat.lt_succ_self n)

theorem natRep_inj {m n : ℕ} (h : natRep m = natRep n) : m = n := by
  have := congrArg parseNum h
  rwa [parseNum_natRep, parseNum_natRep] at this

theorem mem_natReprAux_isDigit (fuel n : ℕ) (h : n < fuel) :
    ∀ c ∈ natReprAux fuel n, c.isDigit = true := by
  induction fuel generalizing n with
  | zero => omega
  | succ fuel ih =>
    intro c hc
    by_cases h10 : n < 10
    · simp only [natReprAux, h10, if_true, List.mem_singleton] at hc
      subst hc
      interval_cases n <;> decide
    · have hdiv : n / 10 < fuel := by
        have : n / 10 < n := Nat.div_lt_self (by omega) (by omega)
        omega
      simp only [natReprAux, h10, if_false, List.mem_append, List.mem_singleton] at hc
      rcases hc with hc | hc
      · exact ih _ hdiv c hc
      · subst hc
        have : n % 10 < 10 := Nat.mod_lt n (by omega)
        interval_cases h' : n % 10 <;> simp_all <;> decide

theorem mem_natRep_isDigit (n : ℕ) : ∀ c ∈ natRep n, c.isDigit = true :=
  mem_natReprAux_isDigit (n + 1) n (Nat.lt_succ_self n)

theorem natRep_ne_nil (n : ℕ) : natRep n ≠ [] := by
  unfold natRep natReprAux
  by_cases h10 : n < 10 <;> simp [h10]

-- Boundary splitting: the backbone of cache-key injectivity -------------------

theorem append_sep_inj {c : Char} {u v x y : List Char}
    (h : u ++ c :: x = v ++ c :: y) (hu : c ∉ u) (hv : c ∉ v) :
    u = v ∧ x = y := by
  induction u generalizing v with
  | nil =>
    cases v with
    | nil => simpa using h
    | cons d v' =>
      simp only [List.nil_append, List.cons_append, List.cons.injEq] at h
      exact absurd (h.1 ▸ List.mem_cons_self d v') hv
  | cons c u' ih =>
    cases v with
    | nil =>
      simp only [List.cons_append, List.nil_append, List.cons.injEq] at h
      exact absurd (h.1.symm ▸ List.mem_cons_self c u') hu
    | cons d v' =>
      simp only [List.cons_append, List.cons.injEq] at h
      have := ih h.2 (fun m => hu (List.mem_cons_of_mem c m))
        (fun m => hv (List.mem_cons_of_mem d m))
      exact ⟨by rw [h.1, this.1], this.2⟩

-- Tensor descriptors and kernel bindings (`objVariables`) ---------------------

/-- torch dtypes accepted by the `{{type}}` substitution of `cuda_kernel`
(any other tensor dtype hits the `assert False` branch). -/
inductive DType
  | uint8 | float16 | float32 | float64 | int32 | int64
deriving DecidableEq, Repr

/-- Python's `str(tensor.dtype)`. -/
def dtypeRep : DType → List Char
  | .uint8 => cs ("torch.uint8")
  | .float16 => cs ("torch.float16")
  | .float32 => cs ("torch.float32")
  | .float64 => cs ("torch.float64")
  | .int32 => cs ("torch.int32")
  | .int64 => cs ("torch.int64")

/-- The C scalar type substituted for `{{type}}`. -/
def ctypeRep : DType → List Char
  | .uint8 => cs ("unsigned char")
  | .float16 => cs ("half")
  | .float32 => cs ("float")
  | .float64 => cs ("double")
  | .int32 => cs ("int")
  | .int64 => cs ("long")

/-- A torch tensor as `cuda_kernel` sees it: structural metadata plus the
buffer, which the cache key must ignore.  `data` stands for the buffer
contents (together with `addr`, its device address); the key serialization
reads only `dtype`, `shape` and `stride`. -/
structure TensorDesc where
  dtype : DType
  shape : List ℕ
  stride : List ℤ
  data : List ℤ
  addr : ℕ
deriving DecidableEq, Repr

/-- A value of `objVariables`: `None`, `int`, `float`, `bool`, `str` or a
tensor.  Floats are modelled as exact rationals. -/
inductive BVal
  | null
  | int (z : ℤ)
  | float (q : ℚ)
  | bool (b : Bool)
  | str (s : List Char)
  | tensor (t : TensorDesc)
deriving DecidableEq

/-- An `objVariables` dict: insertion-ordered (name, value) pairs. -/
abbrev Bindings := List (List Char × BVal)

/-- Python's `str(tensor.shape)`, e.g. `torch.Size([1, 3, 8, 8])`. -/
def shapeRep (s : List ℕ) : List Char :=
  cs ("torch.Size([") ++ joinSep (cs (", ")) (s.map natRep) ++ cs ("])")

/-- Python's `str(tensor.stride())` — a tuple repr, with the trailing comma of
a one-element tuple. -/
def strideRep : List ℤ → List Char
  | [] => cs ("()")
  | [a] => '(' :: intRep a ++ [',', ')']
  | l => '(' :: joinSep (cs (", ")) (l.map intRep) ++ [')']

/-- An abstract injective serialization standing for Python's `str(float)`.
The claims proved here depend only on it being a function of the value. -/
def floatRep (q : ℚ) : List Char := intRep q.num ++ '/' :: natRep q.den

/-- Python's `str(bool)`. -/
def boolRep (b : Bool) : List Char := if b then cs ("True") else cs ("False")

/-- The cache-key fragment one binding contributes (`cuda_kernel`,
lines 129–153 of `M2M_arch.py`): `None` contributes nothing beyond the name,
scalars and strings their `str`, tensors dtype, shape and strides — never the
buffer. -/
def serialKey : BVal → List Char
  | .null => []
  | .int z => intRep z
  | .float q => floatRep q
  | .bool b => boolRep b
  | .str s => s
  | .tensor t => dtypeRep t.dtype ++ shapeRep t.shape ++ strideRep t.stride

/-- The loop `for strVariable in objVariables: strKey += strVariable; ...`. -/
def keyBindings : Bindings → List Char
  | [] => []
  | (nm, v) :: rest => nm ++ serialKey v ++ keyBindings rest

/-- The full cache key `strKey`: function name, serialized bindings in
insertion order, device identity string. -/
def keyOf (strFunction : List Char) (objVariables : Bindings) (device : List Char) :
    List Char :=
  strFunction ++ keyBindings objVariables ++ device

theorem keyBindings_append (b₁ b₂ : Bindings) :
    keyBindings (b₁ ++ b₂) = keyBindings b₁ ++ keyBindings b₂ := by
  induction b₁ with
  | nil => rfl
  | cons p rest ih =>
    cases p with
    | mk nm v => simp [keyBindings, ih]

-- Injectivity of the shape serialization --------------------------------------

theorem mem_joinSep_natRep (s : List ℕ) :
    ∀ c ∈ joinSep (cs (", ")) (s.map natRep),
      c.isDigit = true ∨ c = ',' ∨ c = ' ' := by
  induction s with
  | nil => intro c hc; simp [joinSep] at hc
  | cons a rest ih =>
    intro c hc
    cases rest with
    | nil =>
      simp only [List.map, joinSep] at hc
      exact Or.inl (mem_natRep_isDigit a c hc)
    | cons b rest' =>
      simp only [List.map_cons, joinSep, List.append_assoc] at hc
      rcases List.mem_append.mp hc with hc | hc
      · exact Or.inl (mem_natRep_isDigit a c hc)
      rcases List.mem_append.mp hc with hc | hc
      · have : c = ',' ∨ c = ' ' := by simpa [cs] using hc
        tauto
      · exact ih c (by simpa using hc)

theorem rbrack_not_mem_joinSep (s : List ℕ) :
    ']' ∉ joinSep (cs (", ")) (s.map natRep) := by
  intro h
  rcases mem_joinSep_natRep s ']' h with h' | h' | h' <;> simp_all

theorem comma_not_mem_natRep (n : ℕ) : ',' ∉ natRep n := by
  intro h
  have := mem_natRep_isDigit n ',' h
  simp at this

theorem joinSep_natRep_ne_nil (a : ℕ) (s : List ℕ) :
    joinSep (cs (", ")) ((a :: s).map natRep) ≠ [] := by
  cases s with
  | nil => simpa [joinSep] using natRep_ne_nil a
  | cons b rest =>
    simp only [List.map_cons, joinSep]
    intro h
    rcases List.append_eq_nil.mp h with ⟨h1, _⟩
    rcases List.append_eq_nil.mp h1 with ⟨h2, _⟩
    exact natRep_ne_nil a h2

theorem joinSep_natRep_inj {s₁ s₂ : List ℕ}
    (h : joinSep (cs (", ")) (s₁.map natRep) = joinSep (cs (", ")) (s₂.map natRep)) :
    s₁ = s₂ := by
  induction s₁ generalizing s₂ with
  | nil =>
    cases s₂ with
    | nil => rfl
    | cons b bs => exact absurd h.symm (joinSep_natRep_ne_nil b bs)
  | cons a as ih =>
    cases s₂ with
    | nil => exact absurd h (joinSep_natRep_ne_nil a as)
    | cons b bs =>
      cases as with
      | nil =>
        cases bs with
        | nil =>
          simp only [List.map, joinSep] at h
          rw [natRep_inj h]
        | cons b' bs' =>
          exfalso
          simp only [List.map_cons, joinSep, List.append_assoc] at h
          have hmem : ',' ∈ natRep a := by
            rw [h]
            simp [cs]
          exact comma_not_mem_natRep a hmem
      | cons a' as' =>
        cases bs with
        | nil =>
          exfalso
          simp only [List.map_cons, joinSep, List.append_assoc] at h
          have hmem : ',' ∈ natRep b := by
            rw [← h]
            simp [cs]
          exact comma_not_mem_natRep b hmem
        | cons b' bs' =>
          simp only [List.map_cons, joinSep, List.append_assoc] at h
          have hsplit := append_sep_inj (c := ',')
            (by simpa [cs] using h) (comma_not_mem_natRep a) (comma_not_mem_natRep b)
          have h1 : a = b := natRep_inj hsplit.1
          have h2 := hsplit.2
          simp only [List.cons.injEq] at h2
          have := @ih (b' :: bs') (by simpa using h2.2)
          rw [h1, this]

/-- Two shape serializations followed by anything: equal concatenations force
equal shapes (the serialization is injective and prefix-free, `']'` occurring
exactly once, right before the closing `')'`). -/
theorem shapeRep_append_inj {s₁ s₂ : List ℕ} {x y : List Char}
    (h : shapeRep s₁ ++ x = shapeRep s₂ ++ y) : s₁ = s₂ ∧ x = y := by
  unfold shapeRep at h
  rw [List.append_assoc, List.append_assoc, List.append_assoc, List.append_assoc] at h
  have h' := List.append_cancel_left h
  have hsep := append_sep_inj (c := ']')
    (by simpa [cs] using h') (rbrack_not_mem_joinSep s₁) (rbrack_not_mem_joinSep s₂)
  refine ⟨joinSep_natRep_inj hsep.1, ?_⟩
  have := hsep.2
  simpa using this

-- Structural agreement of bindings (same names, same scalar/string values,
-- same tensor dtype/shape/strides; buffer contents and addresses free) --------

/-- Structural equality of two binding values: scalars and strings equal;
tensors agree on dtype, shape and strides, while `data`/`addr` are free. -/
def structEqB : BVal → BVal → Bool
  | .null, .null => true
  | .int a, .int b => a = b
  | .float a, .float b => a = b
  | .bool a, .bool b => a = b
  | .str a, .str b => a = b
  | .tensor t, .tensor u => t.dtype = u.dtype && t.shape = u.shape && t.stride = u.stride
  | _, _ => false

/-- Pointwise structural agreement of two binding sets, in insertion order. -/
def bindsStructEqB : Bindings → Bindings → Bool
  | [], [] => true
  | (n, v) :: r, (n', v') :: r' => n = n' && structEqB v v' && bindsStructEqB r r'
  | _, _ => false

theorem serialKey_structEq {v v' : BVal} (h : structEqB v v' = true) :
    serialKey v = serialKey v' := by
  cases v <;> cases v' <;> simp_all [structEqB, serialKey]

theorem keyBindings_structEq {b b' : Bindings} (h : bindsStructEqB b b' = true) :
    keyBindings b = keyBindings b' := by
  induction b generalizing b' with
  | nil => cases b' with
    | nil => rfl
    | cons p r => simp [bindsStructEqB] at h
  | cons p r ih =>
    cases p with
    | mk n v =>
      cases b' with
      | nil => simp [bindsStructEqB] at h
      | cons p' r' =>
        cases p' with
        | mk n' v' =>
          simp only [bindsStructEqB, Bool.and_eq_true, decide_eq_true_eq] at h
          simp [keyBindings, h.1.1, serialKey_structEq h.1.2, ih h.2]

/-- Claim C3: the cache key computed by `cuda_kernel` is a function of the
structural data only — two binding sets that agree on names, insertion order,
scalar/string values and tensor `(dtype, shape, strides)` yield the same key
whatever the tensor buffers hold; and changing some tensor's shape (same
name and dtype, everything before it unchanged) changes the key. -/
theorem cuda_kernel_key_structural
    (f dev nm : List Char) (b₂ pre suf suf' : Bindings) (t t' : TensorDesc)
    (hstruct : bindsStructEqB (pre ++ (nm, BVal.tensor t) :: suf) b₂ = true)
    (hdt : t.dtype = t'.dtype) (hsh : t.shape ≠ t'.shape) :
    keyOf f (pre ++ (nm, BVal.tensor t) :: suf) dev = keyOf f b₂ dev ∧
    keyOf f (pre ++ (nm, BVal.tensor t) :: suf) dev ≠
      keyOf f (pre ++ (nm, BVal.tensor t') :: suf') dev := by
  constructor
  · unfold keyOf
    rw [keyBindings_structEq hstruct]
  · intro h
    unfold keyOf at h
    simp only [keyBindings_append, keyBindings, serialKey, List.append_assoc] at h
    have h1 := List.append_cancel_left h
    have h2 := List.append_cancel_left h1
    have h3 := List.append_cancel_left h2
    rw [hdt] at h3
    have h4 := List.append_cancel_left h3
    exact hsh (shapeRep_append_inj h4).1

/-- Two concrete tensors of shapes `[1, 1, 2, 2]` vs `[1, 1, 2, 3]`, and a
third with the first's structure but different buffer contents and address. -/
def wTenA : TensorDesc := ⟨.float32, [1, 1, 2, 2], [4, 4, 2, 1], [0, 1, 2, 3], 100⟩

def wTenB : TensorDesc := ⟨.float32, [1, 1, 2, 2], [4, 4, 2, 1], [9, 8, 7, 6], 999⟩

def wTenC : TensorDesc := ⟨.float32, [1, 1, 2, 3], [6, 6, 3, 1], [0, 0, 0, 0], 100⟩

theorem cuda_kernel_key_structural_witness :
    bindsStructEqB [(cs ("tenIn"), BVal.tensor wTenA)] [(cs ("tenIn"), BVal.tensor wTenB)]
        = true ∧
      wTenA.dtype = wTenC.dtype ∧ wTenA.shape ≠ wTenC.shape ∧
      (keyOf (cs ("softsplat_out")) [(cs ("tenIn"), BVal.tensor wTenA)] (cs ("devX")) =
          keyOf (cs ("softsplat_out")) [(cs ("tenIn"), BVal.tensor wTenB)] (cs ("devX")) ∧
        keyOf (cs ("softsplat_out")) [(cs ("tenIn"), BVal.tensor wTenA)] (cs ("devX")) ≠
          keyOf (cs ("softsplat_out")) [(cs ("tenIn"), BVal.tensor wTenC)] (cs ("devX"))) :=
  ⟨by decide, by decide, by decide,
    cuda_kernel_key_structural (cs ("softsplat_out")) (cs ("devX")) (cs ("tenIn"))
      [(cs ("tenIn"), BVal.tensor wTenB)] [] [] [] wTenA wTenC
      (by decide) (by decide) (by decide)⟩

-- Template resolution (`cuda_kernel`, miss branch, lines 158–335) -------------

/-- The failure modes of the resolution loops: Python `assert` failure,
missing dict key (or attribute), sequence index out of range, and fuel
exhaustion standing for a non-terminating `while True` rewrite loop. -/
inductive KErr
  | assertFail
  | keyErr
  | idxErr
  | noFuel
deriving DecidableEq, Repr

/-- The scalar placeholder `\x7b\x7bname\x7d\x7d` of a kernel template. -/
def placeholder (nm : List Char) : List Char :=
  '\x7b' :: '\x7b' :: nm ++ ['\x7d', '\x7d']

/-- One binding's substitution pass (lines 159–204): scalars and strings
replace their own `\x7b\x7bname\x7d\x7d`; a tensor replaces `\x7b\x7btype\x7d\x7d` with its C
element type; `None` is skipped.  No check for leftover placeholders exists. -/
def substBinding (strKernel : List Char) : List Char × BVal → List Char
  | (_, .null) => strKernel
  | (nm, .int z) => replaceAll strKernel (placeholder nm) (intRep z)
  | (nm, .float q) => replaceAll strKernel (placeholder nm) (floatRep q)
  | (nm, .bool b) => replaceAll strKernel (placeholder nm) (boolRep b)
  | (nm, .str s) => replaceAll strKernel (placeholder nm) s
  | (_, .tensor t) => replaceAll strKernel (placeholder (cs ("type"))) (ctypeRep t.dtype)

/-- The whole `for strVariable in objVariables` substitution loop. -/
def substAll (vars : Bindings) (strKernel : List Char) : List Char :=
  vars.foldl substBinding strKernel

/-- Dict lookup `objVariables[name]`. -/
def lookupB : Bindings → List Char → Option BVal
  | [], _ => none
  | (n, v) :: rest, nm => if n = nm then some v else lookupB rest nm

/-- A digit accepted by the `[0-4]` group of the three macro regexes. -/
def d04 : Char → Option ℕ
  | '0' => some 0 | '1' => some 1 | '2' => some 2 | '3' => some 3 | '4' => some 4
  | _ => none

/-- Does `s` begin with a full `SIZE_k(inner)` match of the regex
`(SIZE_)([0-4])(\()([^\)]*)(\))`?  Returns `(k, inner)`. -/
def matchSizeAt (s : List Char) : Option (ℕ × List Char) :=
  if startsL (cs ("SIZE_")) s then
    match s.drop 5 with
    | d :: '(' :: rest =>
      match d04 d with
      | some k =>
        let inner := rest.takeWhile (· != ')')
        if rest.drop inner.length = [] then none else some (k, inner)
      | none => none
    | _ => none
  else none

/-- `re.search` for the SIZE_ regex: the leftmost match `(k, inner)`. -/
def searchSize : List Char → Option (ℕ × List Char)
  | [] => none
  | c :: rest =>
    match matchSizeAt (c :: rest) with
    | some r => some r
    | none => searchSize rest

/-- The full matched text `SIZE_k(inner)`. -/
def sizeFull (k : ℕ) (inner : List Char) : List Char :=
  cs ("SIZE_") ++ digChar k :: '(' :: inner ++ [')']

/-- One iteration of the SIZE_ rewrite loop (lines 206–226): replace every
occurrence of the matched text by the tensor's k-th dimension extent.
`.ok none` means no match (the loop exits). -/
def sizeStep (vars : Bindings) (s : List Char) : Except KErr (Option (List Char)) :=
  match searchSize s with
  | none => .ok none
  | some (k, inner) =>
    match lookupB vars inner with
    | some (.tensor t) =>
      match t.shape.get? k with
      | some sz => .ok (some (replaceAll s (sizeFull k inner) (natRep sz)))
      | none => .error .idxErr
    | _ => .error .keyErr

/-- A fuel-bounded `while True` rewrite loop around a step function. -/
def loopSteps (step : List Char → Except KErr (Option (List Char))) :
    ℕ → List Char → Except KErr (List Char)
  | 0, s =>
    match step s with
    | .error e => .error e
    | .ok none => .ok s
    | .ok (some _) => .error .noFuel
  | fuel + 1, s =>
    match step s with
    | .error e => .error e
    | .ok none => .ok s
    | .ok (some s') => loopSteps step fuel s'

/-- Does `s` begin with `TAG_k(` (`tag` carries the trailing underscore)?
Returns `k` and what follows the opening parenthesis. -/
def matchParAt (tag s : List Char) : Option (ℕ × List Char) :=
  if startsL tag s then
    match s.drop tag.length with
    | d :: '(' :: rest => (d04 d).map (fun k => (k, rest))
    | _ => none
  else none

/-- `re.search` for `(TAG_)([0-4])(\()`: the leftmost match. -/
def searchPar (tag : List Char) : List Char → Option (ℕ × List Char)
  | [] => none
  | c :: rest =>
    match matchParAt tag (c :: rest) with
    | some r => some r
    | none => searchPar tag rest

/-- The per-argument index terms `((arg)*stride_j)` (braces rewritten to
parentheses, then stripped), mirroring lines 258–272; walking off the end of
the stride tuple is Python's `IndexError`. -/
def buildPieces : List (List Char) → List ℤ → Except KErr (List (List Char))
  | [], _ => .ok []
  | _ :: _, [] => .error .idxErr
  | a :: rest, st :: sts =>
    (buildPieces rest sts).map fun ps =>
      (cs ("((") ++ stripWs (braceToParen a) ++ cs (")*") ++ intRep st ++ [')']) :: ps

/-- One iteration of the OFFSET_/VALUE_ rewrite loop (lines 228–278 resp.
280–330): find the leftmost `TAG_k(`, scan to its closing parenthesis
counting only parentheses, split the region on every comma (the split is NOT
nesting-aware), `assert` the argument count, and replace every occurrence of
the full matched text.  `isValue` selects the `tensor[...]` form. -/
def parStep (isValue : Bool) (vars : Bindings) (s : List Char) :
    Except KErr (Option (List Char)) :=
  let tag := if isValue then cs ("VALUE_") else cs ("OFFSET_")
  match searchPar tag s with
  | none => .ok none
  | some (k, rest) =>
    match findClose rest 1 with
    | none => .error .idxErr
    | some stop =>
      let region := rest.take stop
      let args := splitOn ',' region
      if k = args.length - 1 then
        let strTensor := args.headI
        match lookupB vars strTensor with
        | some (.tensor t) =>
          match buildPieces (args.drop 1) t.stride with
          | .ok pieces =>
            let repl :=
              if isValue then strTensor ++ '[' :: joinSep (cs ("+")) pieces ++ [']']
              else '(' :: joinSep (cs ("+")) pieces ++ [')']
            let full := tag ++ digChar k :: '(' :: region ++ [')']
            .ok (some (replaceAll s full repl))
          | .error e => .error e
        | _ => .error .keyErr
      else .error .assertFail

/-- Template resolution of the miss branch: substitution pass, then the
SIZE_, OFFSET_ and VALUE_ rewrite loops in that order. -/
def resolveKernel (fuel : ℕ) (vars : Bindings) (strKernel : List Char) :
    Except KErr (List Char) :=
  (loopSteps (sizeStep vars) fuel (substAll vars strKernel)).bind fun s1 =>
    (loopSteps (parStep false vars) fuel s1).bind fun s2 =>
      loopSteps (parStep true vars) fuel s2

deriving instance DecidableEq for Except

/-- A `objCudacache[strKey]` record: `{"strFunction": ..., "strKernel": ...}`. -/
structure KernelRec where
  strFunction : List Char
  strKernel : List Char
deriving DecidableEq, Repr

/-- The process-wide `objCudacache` dictionary (device entry aside). -/
abbrev KCache := List (List Char × KernelRec)

def lookupRec : KCache → List Char → Option KernelRec
  | [], _ => none
  | (k, r) :: rest, key => if k = key then some r else lookupRec rest key

/-- `cuda_kernel`: computes the key; on a miss resolves the template and
stores `{strFunction, strKernel}` under the key; on a hit touches nothing and
returns the key at once. -/
def cudaKernelModel (fuel : ℕ) (cache : KCache) (strFunction strKernel : List Char)
    (vars : Bindings) (device : List Char) : Except KErr (KCache × List Char) :=
  let strKey := keyOf strFunction vars device
  match lookupRec cache strKey with
  | some _ => .ok (cache, strKey)
  | none =>
    (resolveKernel fuel vars strKernel).map fun src =>
      ((strKey, ⟨strFunction, src⟩) :: cache, strKey)

/-- `cuda_launch`, `@cupy.memoize`d per device: on a memo hit it returns the
stored handle without invoking the compiler; on a miss it compiles the cached
record (the device toolchain is an external capability — the handle is
identified with the record it was compiled from) and memoizes it.  The `Bool`
reports whether the compiler ran. -/
def cudaLaunchModel (memo cache : KCache) (strKey : List Char) :
    Except KErr (KCache × KernelRec × Bool) :=
  match lookupRec memo strKey with
  | some h => .ok (memo, h, false)
  | none =>
    match lookupRec cache strKey with
    | some r => .ok ((strKey, r) :: memo, r, true)
    | none => .error .keyErr

theorem loopSteps_of_none (step : List Char → Except KErr (Option (List Char)))
    (fuel : ℕ) (s : List Char) (h : step s = .ok none) :
    loopSteps step fuel s = .ok s := by
  cases fuel <;> simp [loopSteps, h]

/-- Claim C5: once a key is in the cache, a later `cuda_kernel` call with the
same key returns at once — the cache (hence the stored record) is unchanged
and the template is not re-resolved (the result does not depend on the
template text or on any resolution fuel); and a `cuda_launch` whose key is
memoized returns the stored handle with the compiler not run. -/
theorem cuda_cache_compile_once
    (fuel : ℕ) (cache memo : KCache) (f t dev k₂ : List Char) (vars : Bindings)
    (r₁ h₂ : KernelRec)
    (hc : lookupRec cache (keyOf f vars dev) = some r₁)
    (hm : lookupRec memo k₂ = some h₂) :
    cudaKernelModel fuel cache f t vars dev = .ok (cache, keyOf f vars dev) ∧
    cudaLaunchModel memo cache k₂ = .ok (memo, h₂, false) := by
  constructor
  · simp [cudaKernelModel, hc]
  · simp [cudaLaunchModel, hm]

theorem cuda_cache_compile_once_witness :
    lookupRec [(keyOf (cs ("f")) [] (cs ("dev")), KernelRec.mk (cs ("f")) (cs ("src")))]
        (keyOf (cs ("f")) [] (cs ("dev"))) = some (KernelRec.mk (cs ("f")) (cs ("src"))) ∧
      lookupRec [(cs ("k2"), KernelRec.mk (cs ("g")) (cs ("s2")))] (cs ("k2")) =
        some (KernelRec.mk (cs ("g")) (cs ("s2"))) ∧
      (cudaKernelModel 0 [(keyOf (cs ("f")) [] (cs ("dev")), KernelRec.mk (cs ("f")) (cs ("src")))]
          (cs ("f")) (placeholder (cs ("foo"))) [] (cs ("dev")) =
        .ok ([(keyOf (cs ("f")) [] (cs ("dev")), KernelRec.mk (cs ("f")) (cs ("src")))],
          keyOf (cs ("f")) [] (cs ("dev"))) ∧
      cudaLaunchModel [(cs ("k2"), KernelRec.mk (cs ("g")) (cs ("s2")))]
          [(keyOf (cs ("f")) [] (cs ("dev")), KernelRec.mk (cs ("f")) (cs ("src")))]
          (cs ("k2")) =
        .ok ([(cs ("k2"), KernelRec.mk (cs ("g")) (cs ("s2")))],
          KernelRec.mk (cs ("g")) (cs ("s2")), false)) :=
  ⟨by decide, by decide,
    cuda_cache_compile_once 0
      [(keyOf (cs ("f")) [] (cs ("dev")), KernelRec.mk (cs ("f")) (cs ("src")))]
      [(cs ("k2"), KernelRec.mk (cs ("g")) (cs ("s2")))]
      (cs ("f")) (placeholder (cs ("foo"))) (cs ("dev")) (cs ("k2")) []
      (KernelRec.mk (cs ("f")) (cs ("src"))) (KernelRec.mk (cs ("g")) (cs ("s2")))
      (by decide) (by decide)⟩

/-- Claim C7 (amended): `cuda_kernel` performs no unresolved-placeholder
check.  With no bindings, any template — in particular one full of `\x7b\x7bname\x7d\x7d`
placeholders — resolves to itself: the call succeeds, stores the template
verbatim (placeholders retained) and raises no error. -/
theorem placeholder_no_check
    (fuel : ℕ) (cache : KCache) (f dev t : List Char)
    (hmiss : lookupRec cache (keyOf f [] dev) = none)
    (h1 : searchSize t = none)
    (h2 : searchPar (cs ("OFFSET_")) t = none)
    (h3 : searchPar (cs ("VALUE_")) t = none) :
    cudaKernelModel fuel cache f t [] dev =
      .ok ((keyOf f [] dev, KernelRec.mk f t) :: cache, keyOf f [] dev) := by
  have hs : sizeStep [] t = .ok none := by simp [sizeStep, h1]
  have ho : parStep false [] t = .ok none := by simp [parStep, h2]
  have hv : parStep true [] t = .ok none := by simp [parStep, h3]
  simp [cudaKernelModel, hmiss, resolveKernel, substAll,
    loopSteps_of_none _ fuel _ hs, loopSteps_of_none _ fuel _ ho,
    loopSteps_of_none _ fuel _ hv, Except.bind, Except.map]

theorem placeholder_no_check_witness :
    lookupRec [] (keyOf (cs ("f")) [] (cs ("devX"))) = none ∧
      searchSize (placeholder (cs ("foo"))) = none ∧
      searchPar (cs ("OFFSET_")) (placeholder (cs ("foo"))) = none ∧
      searchPar (cs ("VALUE_")) (placeholder (cs ("foo"))) = none ∧
      cudaKernelModel 2 [] (cs ("f")) (placeholder (cs ("foo"))) [] (cs ("devX")) =
        .ok ((keyOf (cs ("f")) [] (cs ("devX")),
              KernelRec.mk (cs ("f")) (placeholder (cs ("foo")))) :: [],
          keyOf (cs ("f")) [] (cs ("devX"))) :=
  ⟨by decide, by decide, by decide, by decide,
    placeholder_no_check 2 [] (cs ("f")) (cs ("devX")) (placeholder (cs ("foo")))
      (by decide) (by decide) (by decide) (by decide)⟩

/-- Claim C7's counterexample: a template consisting of the unbound
placeholder `\x7b\x7bfoo\x7d\x7d` with an empty binding set.  `cuda_kernel` does not
abort: it succeeds and the stored "resolved" source still contains the
unresolved placeholder. -/
theorem placeholder_unresolved_counterexample :
    cudaKernelModel 2 [] (cs ("softsplat_out")) (placeholder (cs ("foo"))) []
        (cs ("devX")) =
      .ok ([(keyOf (cs ("softsplat_out")) [] (cs ("devX")),
            KernelRec.mk (cs ("softsplat_out")) (placeholder (cs ("foo"))))],
        keyOf (cs ("softsplat_out")) [] (cs ("devX"))) ∧
    containsSub (placeholder (cs ("foo"))) (placeholder (cs ("foo"))) = true := by
  decide

-- Macro-argument grammar for claim C6 -----------------------------------------

/-- Grammar of OFFSET_/VALUE_ argument texts: atoms of ordinary characters,
balanced parenthesis groups and brace-quoted groups, concatenated.  Commas are
outside the grammar — an argument containing one is mis-split by the plain
`split(",")` and is the counterexample to the claim as stated. -/
inductive ArgExpr
  | atom (s : List Char)
  | par (a : ArgExpr)
  | brace (a : ArgExpr)
  | seq (a b : ArgExpr)

/-- The argument's source text. -/
def ArgExpr.render : ArgExpr → List Char
  | atom s => s
  | par a => '(' :: a.render ++ [')']
  | brace a => '\x7b' :: a.render ++ ['\x7d']
  | seq a b => a.render ++ b.render

/-- An ordinary argument character: no grouping characters, no comma, no
whitespace. -/
def plainChar (c : Char) : Bool :=
  !(c = '(' || c = ')' || c = '\x7b' || c = '\x7d' || c = ',' || isWsChar c)

/-- Well-formedness of an argument: every atom is made of plain characters. -/
def ArgExpr.good : ArgExpr → Bool
  | atom s => s.all plainChar
  | par a => a.good
  | brace a => a.good
  | seq a b => a.good && b.good

theorem mem_render_chars {a : ArgExpr} (h : a.good = true) :
    ∀ c ∈ a.render,
      plainChar c = true ∨ c = '(' ∨ c = ')' ∨ c = '\x7b' ∨ c = '\x7d' := by
  induction a with
  | atom s =>
    intro c hm
    exact Or.inl (List.all_eq_true.mp h c hm)
  | par a ih =>
    intro c hm
    rw [show (ArgExpr.par a).render = '(' :: (a.render ++ [')']) from rfl,
      List.mem_cons] at hm
    rcases hm with hm | hm
    · exact Or.inr (Or.inl hm)
    rcases List.mem_append.mp hm with hm | hm
    · exact ih h c hm
    · exact Or.inr (Or.inr (Or.inl (List.mem_singleton.mp hm)))
  | brace a ih =>
    intro c hm
    rw [show (ArgExpr.brace a).render = '\x7b' :: (a.render ++ ['\x7d']) from rfl,
      List.mem_cons] at hm
    rcases hm with hm | hm
    · exact Or.inr (Or.inr (Or.inr (Or.inl hm)))
    rcases List.mem_append.mp hm with hm | hm
    · exact ih h c hm
    · exact Or.inr (Or.inr (Or.inr (Or.inr (List.mem_singleton.mp hm))))
  | seq a b iha ihb =>
    intro c hm
    simp only [ArgExpr.good, Bool.and_eq_true] at h
    rcases List.mem_append.mp hm with hm | hm
    · exact iha h.1 c hm
    · exact ihb h.2 c hm

theorem comma_not_mem_render {a : ArgExpr} (h : a.good = true) : ',' ∉ a.render := by
  intro hm
  rcases mem_render_chars h ',' hm with hp | hp | hp | hp | hp <;>
    simp [plainChar] at hp

theorem ws_not_mem_render {a : ArgExpr} (h : a.good = true) :
    ∀ c ∈ a.render, isWsChar c = false := by
  intro c hm
  rcases mem_render_chars h c hm with hp | hp | hp | hp | hp
  · simp only [plainChar, Bool.not_eq_true', Bool.or_eq_false_iff] at hp
    exact hp.2
  all_goals subst hp; rfl

-- The parenthesis scan walks through any well-formed fragment ------------------

/-- A fragment the parenthesis scan passes over without closing the macro's
parenthesis: scanning it from any positive depth consumes it whole and leaves
the depth unchanged. -/
def ScanInert (p : List Char) : Prop :=
  ∀ d, 1 ≤ d → ∀ rest : List Char,
    findClose (p ++ rest) d = (findClose rest d).map (· + p.length)

theorem scanInert_nil : ScanInert [] := by
  intro d _ rest
  cases h : findClose rest d <;> simp [h]

theorem scanInert_append {p q : List Char} (hp : ScanInert p) (hq : ScanInert q) :
    ScanInert (p ++ q) := by
  intro d hd rest
  rw [List.append_assoc, hp d hd, hq d hd]
  cases h : findClose rest d <;> simp [h, Nat.add_assoc, Nat.add_comm q.length p.length]

theorem scanInert_neutral_cons {c : Char} (hc1 : c ≠ '(') (hc2 : c ≠ ')')
    {p : List Char} (hp : ScanInert p) : ScanInert (c :: p) := by
  intro d hd rest
  show findClose (c :: (p ++ rest)) d = _
  rw [findClose]
  simp only [hc1, hc2, if_false]
  have hdne : d ≠ 0 := by omega
  simp only [hdne, if_false, hp d hd rest]
  rcases h : findClose rest d with _ | v
  · simp [h]
  · simp [h]
    omega

theorem scanInert_atom {s : List Char} (h : ∀ c ∈ s, c ≠ '(' ∧ c ≠ ')') :
    ScanInert s := by
  induction s with
  | nil => exact scanInert_nil
  | cons c rest ih =>
    have hc := h c (List.mem_cons_self c rest)
    exact scanInert_neutral_cons hc.1 hc.2
      (ih fun c' hc' => h c' (List.mem_cons_of_mem c hc'))

theorem scanInert_group {p : List Char} (hp : ScanInert p) :
    ScanInert ('(' :: p ++ [')']) := by
  intro d hd rest
  show findClose ('(' :: (p ++ [')'] ++ rest)) d = _
  rw [findClose]
  simp only [if_true]
  have h1 : d + 1 ≠ 0 := by omega
  simp only [h1, if_false]
  rw [List.append_assoc, hp (d + 1) (by omega) ([')'] ++ rest)]
  show ((findClose (')' :: rest) (d + 1)).map (· + p.length)).map (· + 1) = _
  rw [findClose]
  have h2 : (')' : Char) ≠ '(' := by decide
  simp only [h2, if_false, if_true]
  have h3 : d + 1 - 1 = d := by omega
  rw [h3]
  have hdne : d ≠ 0 := by omega
  simp only [hdne, if_false]
  cases h : findClose rest d <;> simp [h] <;> omega

theorem scanInert_braceGroup {p : List Char} (hp : ScanInert p) :
    ScanInert ('\x7b' :: p ++ ['\x7d']) := by
  have h1 : ('\x7b' : Char) ≠ '(' := by decide
  have h2 : ('\x7b' : Char) ≠ ')' := by decide
  have h3 : ('\x7d' : Char) ≠ '(' := by decide
  have h4 : ('\x7d' : Char) ≠ ')' := by decide
  have : ScanInert (p ++ ['\x7d']) :=
    scanInert_append hp (scanInert_atom (by intro c hc; simp at hc; subst hc; exact ⟨h3, h4⟩))
  exact scanInert_neutral_cons h1 h2 this

theorem scanInert_render {a : ArgExpr} (h : a.good = true) : ScanInert a.render := by
  induction a with
  | atom s =>
    refine scanInert_atom fun c hc => ?_
    have := List.all_eq_true.mp h c hc
    simp only [plainChar, Bool.not_eq_true', Bool.or_eq_false_iff] at this
    constructor
    · simpa using this.1.1.1.1.1
    · simpa using this.1.1.1.1.2
  | par a ih => exact scanInert_group (ih h)
  | brace a ih => exact scanInert_braceGroup (ih h)
  | seq a b iha ihb =>
    simp only [ArgExpr.good, Bool.and_eq_true] at h
    exact scanInert_append (iha h.1) (ihb h.2)

-- The macro call text and its claimed expansion --------------------------------

/-- The comma-separated argument region `tensor,i0,...,i_k-1`. -/
def argsRegion (T : List Char) (args : List ArgExpr) : List Char :=
  joinSep [','] (T :: args.map ArgExpr.render)

/-- A complete macro occurrence `TAG_k(tensor,i0,...,i_k-1)`. -/
def macroCall (tag T : List Char) (args : List ArgExpr) : List Char :=
  tag ++ (digChar args.length :: '(' :: (argsRegion T args ++ [')']))

/-- The per-argument terms `((i_j)*stride_j)`, braces rewritten to
parentheses. -/
def offsetPieces (args : List ArgExpr) (strides : List ℤ) : List (List Char) :=
  List.zipWith
    (fun a st => cs ("((") ++ braceToParen a.render ++ cs (")*") ++ intRep st ++ [')'])
    args strides

/-- The OFFSET_ replacement: the parenthesized sum of `((i_j)*stride_j)`. -/
def offsetExpansion (args : List ArgExpr) (strides : List ℤ) : List Char :=
  '(' :: joinSep (cs ("+")) (offsetPieces args strides) ++ [')']

/-- The VALUE_ replacement: the tensor indexed by that sum. -/
def valueExpansion (T : List Char) (args : List ArgExpr) (strides : List ℤ) :
    List Char :=
  T ++ '[' :: joinSep (cs ("+")) (offsetPieces args strides) ++ [']']

theorem splitOn_joinSep (ps : List (List Char)) (h : ∀ p ∈ ps, ',' ∉ p)
    (hne : ps ≠ []) : splitOn ',' (joinSep [','] ps) = ps := by
  induction ps with
  | nil => exact absurd rfl hne
  | cons p rest ih =>
    cases rest with
    | nil => exact splitOn_no_sep ',' p (h p (List.mem_cons_self p []))
    | cons q rest' =>
      have hj : joinSep [','] (p :: q :: rest') = p ++ ',' :: joinSep [','] (q :: rest') := by
        simp [joinSep]
      rw [hj, splitOn_append ',' _ _ (h p (List.mem_cons_self p _)),
        ih (fun x hx => h x (List.mem_cons_of_mem p hx)) (by simp)]

theorem scanInert_plain {s : List Char} (h : s.all plainChar = true) : ScanInert s := by
  refine scanInert_atom fun c hc => ?_
  have := List.all_eq_true.mp h c hc
  simp only [plainChar, Bool.not_eq_true', Bool.or_eq_false_iff] at this
  constructor
  · simpa using this.1.1.1.1.1
  · simpa using this.1.1.1.1.2

theorem scanInert_joinSep (sep : List Char) (hsep : ScanInert sep)
    (ps : List (List Char)) (h : ∀ p ∈ ps, ScanInert p) :
    ScanInert (joinSep sep ps) := by
  induction ps with
  | nil => exact scanInert_nil
  | cons p rest ih =>
    cases rest with
    | nil => exact h p (List.mem_cons_self p [])
    | cons q rest' =>
      show ScanInert (p ++ sep ++ joinSep sep (q :: rest'))
      exact scanInert_append (scanInert_append (h p (List.mem_cons_self p _)) hsep)
        (ih fun x hx => h x (List.mem_cons_of_mem p hx))

theorem scanInert_argsRegion (T : List Char) (hT : T.all plainChar = true)
    (args : List ArgExpr) (hgood : ∀ a ∈ args, a.good = true) :
    ScanInert (argsRegion T args) := by
  refine scanInert_joinSep [','] (scanInert_atom ?_) _ ?_
  · intro c hc
    simp only [List.mem_singleton] at hc
    subst hc
    exact ⟨by decide, by decide⟩
  · intro p hp
    rcases List.mem_cons.mp hp with hp | hp
    · subst hp
      exact scanInert_plain hT
    · rcases List.mem_map.mp hp with ⟨a, ha, rfl⟩
      exact scanInert_render (hgood a ha)

theorem findClose_region (region : List Char) (h : ScanInert region) :
    findClose (region ++ [')']) 1 = some region.length := by
  have h1 : findClose [')'] 1 = some 0 := by decide
  have := h 1 (le_refl 1) [')']
  rw [this, h1]
  simp

theorem searchPar_of_matchAt {tag s : List Char} {r : ℕ × List Char}
    (hs : s ≠ []) (h : matchParAt tag s = some r) : searchPar tag s = some r := by
  cases s with
  | nil => exact absurd rfl hs
  | cons c rest => simp [searchPar, h]

theorem d04_digChar {k : ℕ} (hk : k ≤ 4) : d04 (digChar k) = some k := by
  interval_cases k <;> rfl

theorem matchParAt_macroCall (tag T : List Char) (args : List ArgExpr)
    (hk : args.length ≤ 4) :
    matchParAt tag (macroCall tag T args) =
      some (args.length, argsRegion T args ++ [')']) := by
  unfold matchParAt macroCall
  rw [startsL_append, if_pos rfl,
    List.drop_left tag (digChar args.length :: '(' :: (argsRegion T args ++ [')']))]
  simp [d04_digChar hk]

theorem ws_not_mem_braceToParen {a : ArgExpr} (h : a.good = true) :
    ∀ c ∈ braceToParen a.render, isWsChar c = false := by
  intro c hc
  rcases List.mem_map.mp hc with ⟨b, hb, rfl⟩
  have hbn := ws_not_mem_render h b hb
  by_cases h1 : b = '\x7b'
  · subst h1
    decide
  by_cases h2 : b = '\x7d'
  · subst h2
    decide
  · simpa [h1, h2] using hbn

theorem buildPieces_renders (args : List ArgExpr) (sts : List ℤ)
    (hgood : ∀ a ∈ args, a.good = true) (hlen : args.length ≤ sts.length) :
    buildPieces (args.map ArgExpr.render) sts = .ok (offsetPieces args sts) := by
  induction args generalizing sts with
  | nil => simp [buildPieces, offsetPieces]
  | cons a rest ih =>
    cases sts with
    | nil => simp at hlen
    | cons st sts' =>
      have hstrip : stripWs (braceToParen a.render) = braceToParen a.render :=
        stripWs_of_no_ws _ (ws_not_mem_braceToParen (hgood a (List.mem_cons_self a rest)))
      simp only [List.map_cons, buildPieces,
        ih sts' (fun x hx => hgood x (List.mem_cons_of_mem a hx))
          (by simp only [List.length_cons] at hlen; omega)]
      simp [offsetPieces, hstrip, Except.map]

theorem macroCall_ne_nil {tag : List Char} (htag : tag ≠ []) (T : List Char)
    (args : List ArgExpr) : macroCall tag T args ≠ [] := by
  unfold macroCall
  intro h
  exact htag (List.append_eq_nil.mp h).1

/-- One iteration of the OFFSET_/VALUE_ loop on a well-formed single macro
occurrence: the occurrence is rewritten to its expansion. -/
theorem parStep_macroCall (isValue : Bool) (vars : Bindings) (T : List Char)
    (hT : T.all plainChar = true) (args : List ArgExpr)
    (hgood : ∀ a ∈ args, a.good = true) (hk : args.length ≤ 4)
    (td : TensorDesc) (hlook : lookupB vars T = some (BVal.tensor td))
    (hstr : args.length ≤ td.stride.length) :
    parStep isValue vars
        (macroCall (if isValue then cs ("VALUE_") else cs ("OFFSET_")) T args) =
      .ok (some (if isValue then valueExpansion T args td.stride
                 else offsetExpansion args td.stride)) := by
  have htagne : (if isValue then cs ("VALUE_") else cs ("OFFSET_")) ≠ [] := by
    cases isValue <;> decide
  have hmc_ne := macroCall_ne_nil htagne T args
  have hsearch := searchPar_of_matchAt hmc_ne
    (matchParAt_macroCall (if isValue then cs ("VALUE_") else cs ("OFFSET_")) T args hk)
  have hfc := findClose_region _ (scanInert_argsRegion T hT args hgood)
  have hsplit : splitOn ',' (argsRegion T args) = T :: args.map ArgExpr.render := by
    unfold argsRegion
    apply splitOn_joinSep
    · intro p hp
      rcases List.mem_cons.mp hp with hp | hp
      · subst hp
        intro hm
        have := List.all_eq_true.mp hT ',' hm
        simp [plainChar] at this
      · rcases List.mem_map.mp hp with ⟨a, ha, rfl⟩
        exact comma_not_mem_render (hgood a ha)
    · simp
  have heq : ((if isValue then cs ("VALUE_") else cs ("OFFSET_")) ++
      (digChar args.length :: '(' :: argsRegion T args)) ++ [')'] =
      macroCall (if isValue then cs ("VALUE_") else cs ("OFFSET_")) T args := by
    simp [macroCall]
  simp only [parStep, hsearch, hfc, List.take_left, hsplit, List.length_cons,
    Nat.add_sub_cancel, if_pos rfl, List.headI, hlook, List.drop_succ_cons,
    List.drop_zero, buildPieces_renders args td.stride hgood hstr]
  rw [heq, replaceAll_self _ _ hmc_ne]
  simp [List.length_map, valueExpansion, offsetExpansion]

/-- Claim C6 (amended): for a macro occurrence whose arguments contain
balanced parentheses and brace-quoted sub-expressions but no commas, the
OFFSET_ loop rewrites `OFFSET_k(T,i0,...)` to the sum of
`((i_j)*stride_j(T))` with braces rewritten to parentheses, and the VALUE_
loop rewrites `VALUE_k(T,i0,...)` to `T[...]` indexed by that sum.  (The
extent scan is nesting-aware, but the argument *split* is a plain
`split(",")`: an argument containing a comma inside nested grouping fails the
argument-count assert instead — the counterexample.) -/
theorem offset_value_expansion
    (vars : Bindings) (T : List Char) (hT : T.all plainChar = true)
    (args : List ArgExpr) (hgood : args.all ArgExpr.good = true)
    (hk : args.length ≤ 4)
    (td : TensorDesc) (hlook : lookupB vars T = some (BVal.tensor td))
    (hstr : args.length ≤ td.stride.length) (fuel : ℕ)
    (hstop₀ : searchPar (cs ("OFFSET_")) (offsetExpansion args td.stride) = none)
    (hstop₁ : searchPar (cs ("VALUE_")) (valueExpansion T args td.stride) = none) :
    loopSteps (parStep false vars) (fuel + 1) (macroCall (cs ("OFFSET_")) T args) =
      .ok (offsetExpansion args td.stride) ∧
    loopSteps (parStep true vars) (fuel + 1) (macroCall (cs ("VALUE_")) T args) =
      .ok (valueExpansion T args td.stride) := by
  have hgood' : ∀ a ∈ args, a.good = true := List.all_eq_true.mp hgood
  constructor
  · have hoff := parStep_macroCall false vars T hT args hgood' hk td hlook hstr
    simp only [Bool.false_eq_true, if_false] at hoff
    have hstay : parStep false vars (offsetExpansion args td.stride) = .ok none := by
      simp [parStep, hstop₀]
    simp only [loopSteps, hoff]
    exact loopSteps_of_none _ fuel _ hstay
  · have hval := parStep_macroCall true vars T hT args hgood' hk td hlook hstr
    simp only [if_true] at hval
    have hstay : parStep true vars (valueExpansion T args td.stride) = .ok none := by
      simp [parStep, hstop₁]
    simp only [loopSteps, hval]
    exact loopSteps_of_none _ fuel _ hstay

/-- Concrete macro arguments exercising nesting: an atom, a
parenthesized sub-expression and a brace-quoted sub-expression. -/
def wArgs : List ArgExpr :=
  [ArgExpr.atom (cs ("intN")),
   ArgExpr.seq (ArgExpr.atom (cs ("f"))) (ArgExpr.par (ArgExpr.atom (cs ("x+1")))),
   ArgExpr.brace (ArgExpr.atom (cs ("intY-1")))]

def wVars : Bindings := [(cs ("tenFlow"), BVal.tensor wTenA)]

theorem offset_value_expansion_witness :
    ((cs ("tenFlow")).all plainChar = true) ∧
      (wArgs.all ArgExpr.good = true) ∧ wArgs.length ≤ 4 ∧
      lookupB wVars (cs ("tenFlow")) = some (BVal.tensor wTenA) ∧
      wArgs.length ≤ wTenA.stride.length ∧
      searchPar (cs ("OFFSET_")) (offsetExpansion wArgs wTenA.stride) = none ∧
      searchPar (cs ("VALUE_")) (valueExpansion (cs ("tenFlow")) wArgs wTenA.stride) =
        none ∧
      (loopSteps (parStep false wVars) (0 + 1)
          (macroCall (cs ("OFFSET_")) (cs ("tenFlow")) wArgs) =
        .ok (offsetExpansion wArgs wTenA.stride) ∧
      loopSteps (parStep true wVars) (0 + 1)
          (macroCall (cs ("VALUE_")) (cs ("tenFlow")) wArgs) =
        .ok (valueExpansion (cs ("tenFlow")) wArgs wTenA.stride)) :=
  ⟨by decide, by decide, by decide, by decide, by decide, by decide, by decide,
    offset_value_expansion wVars (cs ("tenFlow")) (by decide) wArgs (by decide)
      (by decide) wTenA (by decide) (by decide) 0 (by decide) (by decide)⟩

/-- Claim C6's counterexample: the occurrence `OFFSET_1(tenA, f(1,2))`, whose
single argument `f(1,2)` is a balanced-parenthesis sub-expression containing
a comma.  The plain `split(",")` yields three pieces, the argument-count
`assert` fails, and no expansion is produced — contradicting the claim that
argument splitting respects nested grouping. -/
theorem offset_nested_comma_counterexample :
    parStep false [(cs ("tenA"), BVal.tensor wTenA)]
        (cs ("OFFSET_1(tenA, f(1,2))")) = .error KErr.assertFail := by
  decide

-- The softsplat forward kernel (`softsplat_out`, lines 1462–1513) -------------

/-- Tensor dimensions `[N, C, H, W]`. -/
structure Dims where
  N : ℕ
  C : ℕ
  H : ℕ
  W : ℕ

/-- A dense `[N, C, H, W]` tensor of exact device scalars. -/
def Tensor (d : Dims) (α : Type) : Type :=
  Fin d.N → Fin d.C → Fin d.H → Fin d.W → α

/-- A flow field `[N, 2, H, W]`: channel 0 horizontal, channel 1 vertical
displacement; `none` is a non-finite float (NaN or ±inf), which the kernels
test with `isfinite`. -/
def FlowT (N H W : ℕ) (α : Type) : Type :=
  Fin N → Fin 2 → Fin H → Fin W → Option α

/-- The launch uses `grid = ceil(n/512)` blocks of 512 threads, so the
grid-stride `blockDim.x * gridDim.x` is at least `n`: each thread's loop body
runs at most once and the kernels' early `return` skips exactly one element's
work. -/
theorem grid_stride_single_pass (n : ℕ) : n ≤ ((n + 512 - 1) / 512) * 512 := by
  omega

section Splat

variable {α : Type} [LinearOrderedField α] [FloorRing α]

/-- `fltX = (type)(intX) + VALUE_4(tenFlow, intN, 0, intY, intX)`:
non-finite as soon as the flow value is. -/
def destX {N H W : ℕ} (tenFlow : FlowT N H W α) (n : Fin N) (y : Fin H)
    (x : Fin W) : Option α :=
  (tenFlow n 0 y x).map fun v => ((x : ℕ) : α) + v

/-- `fltY = (type)(intY) + VALUE_4(tenFlow, intN, 1, intY, intX)`. -/
def destY {N H W : ℕ} (tenFlow : FlowT N H W α) (n : Fin N) (y : Fin H)
    (x : Fin W) : Option α :=
  (tenFlow n 1 y x).map fun v => ((y : ℕ) : α) + v

/-- Both `isfinite` checks pass at this source pixel. -/
def destFinite {N H W : ℕ} (tenFlow : FlowT N H W α) (n : Fin N) (y : Fin H)
    (x : Fin W) : Prop :=
  (tenFlow n 0 y x).isSome = true ∧ (tenFlow n 1 y x).isSome = true

/-- `intNorthwestX = (int) (floor(fltX))` and its three neighbours. -/
def intNorthwestX (fltX : α) : ℤ := ⌊fltX⌋

def intNorthwestY (fltY : α) : ℤ := ⌊fltY⌋

def intNortheastX (fltX : α) : ℤ := intNorthwestX fltX + 1

def intNortheastY (fltY : α) : ℤ := intNorthwestY fltY

def intSouthwestX (fltX : α) : ℤ := intNorthwestX fltX

def intSouthwestY (fltY : α) : ℤ := intNorthwestY fltY + 1

def intSoutheastX (fltX : α) : ℤ := intNorthwestX fltX + 1

def intSoutheastY (fltY : α) : ℤ := intNorthwestY fltY + 1

/-- The four bilinear area weights, exactly as the kernel computes them. -/
def fltNorthwest (fltX fltY : α) : α :=
  ((intSoutheastX fltX : ℤ) - fltX) * ((intSoutheastY fltY : ℤ) - fltY)

def fltNortheast (fltX fltY : α) : α :=
  (fltX - (intSouthwestX fltX : ℤ)) * ((intSouthwestY fltY : ℤ) - fltY)

def fltSouthwest (fltX fltY : α) : α :=
  ((intNortheastX fltX : ℤ) - fltX) * (fltY - (intNortheastY fltY : ℤ))

def fltSoutheast (fltX fltY : α) : α :=
  (fltX - (intNorthwestX fltX : ℤ)) * (fltY - (intNorthwestY fltY : ℤ))

/-- The corner bounds test `(cX >= 0) && (cX < SIZE_3) && (cY >= 0) && (cY < SIZE_2)`. -/
def inBounds (d : Dims) (cX cY : ℤ) : Prop :=
  0 ≤ cX ∧ cX < (d.W : ℤ) ∧ 0 ≤ cY ∧ cY < (d.H : ℤ)

instance (d : Dims) (cX cY : ℤ) : Decidable (inBounds d cX cY) := by
  unfold inBounds; infer_instance

/-- What one guarded `atomicAdd(&tenOut[...corner...], v)` contributes to the
output cell `(oy, ox)`: `v` when the corner is in bounds and addresses that
cell, nothing otherwise. -/
def cornerAdd (d : Dims) (cX cY : ℤ) (v : α) (oy : Fin d.H) (ox : Fin d.W) : α :=
  if inBounds d cX cY ∧ cX = ((ox : ℕ) : ℤ) ∧ cY = ((oy : ℕ) : ℤ) then v else 0

/-- One source pixel's total contribution to output cell `(oy, ox)`: the body
of `softsplat_out` for one `intIndex`.  The early `return` on a non-finite
destination makes the contribution zero (the accumulator is `new_zeros`). -/
def contrib (d : Dims) (tenIn : Tensor d α) (tenFlow : FlowT d.N d.H d.W α)
    (n : Fin d.N) (c : Fin d.C) (y : Fin d.H) (x : Fin d.W)
    (oy : Fin d.H) (ox : Fin d.W) : α :=
  match destX tenFlow n y x, destY tenFlow n y x with
  | some fltX, some fltY =>
    let fltIn := tenIn n c y x
    cornerAdd d (intNorthwestX fltX) (intNorthwestY fltY)
        (fltIn * fltNorthwest fltX fltY) oy ox +
      cornerAdd d (intNortheastX fltX) (intNortheastY fltY)
        (fltIn * fltNortheast fltX fltY) oy ox +
      cornerAdd d (intSouthwestX fltX) (intSouthwestY fltY)
        (fltIn * fltSouthwest fltX fltY) oy ox +
      cornerAdd d (intSoutheastX fltX) (intSoutheastY fltY)
        (fltIn * fltSoutheast fltX fltY) oy ox
  | _, _ => 0

/-- `softsplat_out`: the zero-initialized accumulator after every source
pixel's guarded atomic adds — an order-independent sum of contributions. -/
def softsplat_out (d : Dims) (tenIn : Tensor d α) (tenFlow : FlowT d.N d.H d.W α) :
    Tensor d α :=
  fun n c oy ox => ∑ y : Fin d.H, ∑ x : Fin d.W, contrib d tenIn tenFlow n c y x oy ox

/-- The all-zero flow field. -/
def zeroFlow (N H W : ℕ) : FlowT N H W α := fun _ _ _ _ => some 0

theorem cornerAdd_zero_val (d : Dims) (cX cY : ℤ) (oy : Fin d.H) (ox : Fin d.W) :
    cornerAdd d cX cY (0 : α) oy ox = 0 := by
  unfold cornerAdd
  split_ifs <;> rfl

theorem cornerAdd_self (d : Dims) (x ox : Fin d.W) (y oy : Fin d.H) (v : α) :
    cornerAdd d ((x : ℕ) : ℤ) ((y : ℕ) : ℤ) v oy ox =
      if x = ox then (if y = oy then v else 0) else 0 := by
  unfold cornerAdd inBounds
  by_cases hx : x = ox
  · by_cases hy : y = oy
    · subst hx; subst hy
      rw [if_pos, if_pos rfl, if_pos rfl]
      refine ⟨⟨Int.natCast_nonneg _, ?_, Int.natCast_nonneg _, ?_⟩, rfl, rfl⟩
      · exact_mod_cast x.isLt
      · exact_mod_cast y.isLt
    · rw [if_neg, if_pos hx, if_neg hy]
      rintro ⟨-, -, hyy⟩
      exact hy (Fin.ext (by exact_mod_cast hyy))
  · rw [if_neg, if_neg hx]
    rintro ⟨-, hxx, -⟩
    exact hx (Fin.ext (by exact_mod_cast hxx))

theorem contrib_zero_flow (d : Dims) (tenIn : Tensor d α) (n : Fin d.N)
    (c : Fin d.C) (y : Fin d.H) (x : Fin d.W) (oy : Fin d.H) (ox : Fin d.W) :
    contrib d tenIn (zeroFlow d.N d.H d.W) n c y x oy ox =
      if x = ox then (if y = oy then tenIn n c y x else 0) else 0 := by
  have hX : destX (α := α) (zeroFlow d.N d.H d.W) n y x = some ((x : ℕ) : α) := by
    simp [destX, zeroFlow]
  have hY : destY (α := α) (zeroFlow d.N d.H d.W) n y x = some ((y : ℕ) : α) := by
    simp [destY, zeroFlow]
  unfold contrib
  rw [hX, hY]
  have hfx : intNorthwestX ((x : ℕ) : α) = ((x : ℕ) : ℤ) := Int.floor_natCast _
  have hfy : intNorthwestY ((y : ℕ) : α) = ((y : ℕ) : ℤ) := Int.floor_natCast _
  have hNW : fltNorthwest ((x : ℕ) : α) ((y : ℕ) : α) = 1 := by
    unfold fltNorthwest intSoutheastX intSoutheastY
    rw [show intNorthwestX ((x : ℕ) : α) = ((x : ℕ) : ℤ) from hfx,
      show intNorthwestY ((y : ℕ) : α) = ((y : ℕ) : ℤ) from hfy]
    push_cast
    ring
  have hNE : fltNortheast ((x : ℕ) : α) ((y : ℕ) : α) = 0 := by
    unfold fltNortheast intSouthwestX intSouthwestY
    rw [hfx, hfy]
    push_cast
    ring
  have hSW : fltSouthwest ((x : ℕ) : α) ((y : ℕ) : α) = 0 := by
    unfold fltSouthwest intNortheastX intNortheastY
    rw [hfx, hfy]
    push_cast
    ring
  have hSE : fltSoutheast ((x : ℕ) : α) ((y : ℕ) : α) = 0 := by
    unfold fltSoutheast
    rw [hfx, hfy]
    push_cast
    ring
  simp only [hNW, hNE, hSW, hSE, mul_one, mul_zero, cornerAdd_zero_val,
    add_zero, zero_add]
  rw [hfx, hfy, cornerAdd_self]

/-- Splatting with an all-zero flow reproduces the source exactly (generic in
the scalar field; shared by claims C8 and C4's counterexample). -/
theorem softsplat_out_zero_flow (d : Dims) (tenIn : Tensor d α) :
    softsplat_out d tenIn (zeroFlow d.N d.H d.W) = tenIn := by
  funext n c oy ox
  show (∑ y : Fin d.H, ∑ x : Fin d.W, contrib d tenIn (zeroFlow d.N d.H d.W) n c y x oy ox)
      = tenIn n c oy ox
  have h1 : ∀ y : Fin d.H,
      (∑ x : Fin d.W, contrib d tenIn (zeroFlow d.N d.H d.W) n c y x oy ox) =
        if y = oy then tenIn n c y ox else 0 := by
    intro y
    rw [Finset.sum_congr rfl fun x _ => contrib_zero_flow d tenIn n c y x oy ox]
    rw [Finset.sum_ite_eq' Finset.univ ox fun x => if y = oy then tenIn n c y x else 0]
    simp
  rw [Finset.sum_congr rfl fun y _ => h1 y]
  rw [Finset.sum_ite_eq' Finset.univ oy fun y => tenIn n c y ox]
  simp

end Splat

/-- Claim C10: partition of unity of the kernel's bilinear weights — for every
finite destination coordinate the four corner weights sum exactly to 1 in
exact arithmetic. -/
theorem bilinear_weights_sum_one (fltX fltY : ℚ) :
    fltNorthwest fltX fltY + fltNortheast fltX fltY +
      fltSouthwest fltX fltY + fltSoutheast fltX fltY = 1 := by
  unfold fltNorthwest fltNortheast fltSouthwest fltSoutheast
    intSoutheastX intSoutheastY intSouthwestX intSouthwestY
    intNortheastX intNortheastY intNorthwestX intNorthwestY
  push_cast
  ring

/-- Claim C8: conservation at identity flow — the forward splat with an
all-zero flow field equals the source tensor exactly (each source pixel lands
on its own cell with weight 1, and weight 0 at the other three corners). -/
theorem softsplat_identity_flow (d : Dims) (tenIn : Tensor d ℚ) :
    softsplat_out d tenIn (zeroFlow d.N d.H d.W) = tenIn :=
  softsplat_out_zero_flow d tenIn

section SplatMore

variable {α : Type} [LinearOrderedField α] [FloorRing α]

instance {N H W : ℕ} (tenFlow : FlowT N H W α) (n : Fin N) (y : Fin H) (x : Fin W) :
    Decidable (destFinite tenFlow n y x) := by
  unfold destFinite; infer_instance

theorem contrib_nonfinite (d : Dims) (tenIn : Tensor d α)
    (tenFlow : FlowT d.N d.H d.W α) (n : Fin d.N) (c : Fin d.C) (y : Fin d.H)
    (x : Fin d.W) (oy : Fin d.H) (ox : Fin d.W)
    (h : ¬ destFinite tenFlow n y x) :
    contrib d tenIn tenFlow n c y x oy ox = 0 := by
  rcases h0 : tenFlow n 0 y x with _ | v0 <;> rcases h1 : tenFlow n 1 y x with _ | v1
  · simp [contrib, destX, destY, h0, h1]
  · simp [contrib, destX, destY, h0, h1]
  · simp [contrib, destX, destY, h0, h1]
  · exact absurd ⟨by simp [h0], by simp [h1]⟩ h

theorem contrib_congr_finite (d : Dims) (tenIn tenIn' : Tensor d α)
    (tenFlow : FlowT d.N d.H d.W α) (n : Fin d.N) (c : Fin d.C) (y : Fin d.H)
    (x : Fin d.W) (oy : Fin d.H) (ox : Fin d.W)
    (hval : tenIn n c y x = tenIn' n c y x) :
    contrib d tenIn tenFlow n c y x oy ox = contrib d tenIn' tenFlow n c y x oy ox := by
  unfold contrib
  rw [hval]

end SplatMore

/-- Claim C9: out-of-bounds discard — when every source pixel's destination
has all four integer corner neighbours outside `[0,W) × [0,H)`, no corner is
ever written and the forward splat returns the zero accumulator. -/
theorem softsplat_out_of_bounds_zero (d : Dims) (tenIn : Tensor d ℚ)
    (tenFlow : FlowT d.N d.H d.W ℚ)
    (h : ∀ (n : Fin d.N) (y : Fin d.H) (x : Fin d.W) (fltX fltY : ℚ),
      destX tenFlow n y x = some fltX → destY tenFlow n y x = some fltY →
        ¬ inBounds d (intNorthwestX fltX) (intNorthwestY fltY) ∧
        ¬ inBounds d (intNortheastX fltX) (intNortheastY fltY) ∧
        ¬ inBounds d (intSouthwestX fltX) (intSouthwestY fltY) ∧
        ¬ inBounds d (intSoutheastX fltX) (intSoutheastY fltY)) :
    softsplat_out d tenIn tenFlow = fun _ _ _ _ => 0 := by
  funext n c oy ox
  refine Finset.sum_eq_zero fun y _ => Finset.sum_eq_zero fun x _ => ?_
  rcases hX : destX tenFlow n y x with _ | fX
  · rcases hY : destY tenFlow n y x with _ | fY <;> simp [contrib, hX, hY]
  rcases hY : destY tenFlow n y x with _ | fY
  · simp [contrib, hX, hY]
  obtain ⟨h1, h2, h3, h4⟩ := h n y x fX fY hX hY
  simp [contrib, hX, hY, cornerAdd, h1, h2, h3, h4]

/-- The concrete out-of-bounds witness: a 1×1×1×1 source, flow `(+5, +5)`. -/
def flowFive : FlowT 1 1 1 ℚ := fun _ _ _ _ => some 5

def tenThree : Tensor ⟨1, 1, 1, 1⟩ ℚ := fun _ _ _ _ => 3

theorem softsplat_out_of_bounds_zero_witness :
    (∀ (n : Fin 1) (y : Fin 1) (x : Fin 1) (fltX fltY : ℚ),
      destX flowFive n y x = some fltX → destY flowFive n y x = some fltY →
        ¬ inBounds ⟨1, 1, 1, 1⟩ (intNorthwestX fltX) (intNorthwestY fltY) ∧
        ¬ inBounds ⟨1, 1, 1, 1⟩ (intNortheastX fltX) (intNortheastY fltY) ∧
        ¬ inBounds ⟨1, 1, 1, 1⟩ (intSouthwestX fltX) (intSouthwestY fltY) ∧
        ¬ inBounds ⟨1, 1, 1, 1⟩ (intSoutheastX fltX) (intSoutheastY fltY)) ∧
    softsplat_out ⟨1, 1, 1, 1⟩ tenThree flowFive = fun _ _ _ _ => 0 := by
  have hfive : ∀ (n : Fin 1) (y : Fin 1) (x : Fin 1) (fltX fltY : ℚ),
      destX flowFive n y x = some fltX → destY flowFive n y x = some fltY →
        ¬ inBounds ⟨1, 1, 1, 1⟩ (intNorthwestX fltX) (intNorthwestY fltY) ∧
        ¬ inBounds ⟨1, 1, 1, 1⟩ (intNortheastX fltX) (intNortheastY fltY) ∧
        ¬ inBounds ⟨1, 1, 1, 1⟩ (intSouthwestX fltX) (intSouthwestY fltY) ∧
        ¬ inBounds ⟨1, 1, 1, 1⟩ (intSoutheastX fltX) (intSoutheastY fltY) := by
    intro n y x fltX fltY hX hY
    have hx0 : ((x : ℕ) : ℚ) = 0 := by
      have : (x : ℕ) = 0 := by omega
      simp [this]
    have hy0 : ((y : ℕ) : ℚ) = 0 := by
      have : (y : ℕ) = 0 := by omega
      simp [this]
    simp only [destX, flowFive, Option.map_some', Option.some.injEq] at hX
    simp only [destY, flowFive, Option.map_some', Option.some.injEq] at hY
    have hfx : fltX = 5 := by rw [← hX, hx0]; norm_num
    have hfy : fltY = 5 := by rw [← hY, hy0]; norm_num
    subst hfx; subst hfy
    have hfl : intNorthwestX (5 : ℚ) = 5 := by
      unfold intNorthwestX
      rw [show (5 : ℚ) = ((5 : ℤ) : ℚ) by norm_num, Int.floor_intCast]
    have hflY : intNorthwestY (5 : ℚ) = 5 := by
      unfold intNorthwestY
      rw [show (5 : ℚ) = ((5 : ℤ) : ℚ) by norm_num, Int.floor_intCast]
    refine ⟨?_, ?_, ?_, ?_⟩ <;>
      simp [inBounds, intNortheastX, intNortheastY, intSouthwestX, intSouthwestY,
        intSoutheastX, intSoutheastY, hfl, hflY] <;> omega
  exact ⟨hfive, softsplat_out_of_bounds_zero ⟨1, 1, 1, 1⟩ tenThree flowFive hfive⟩

/-- Claim C1: a source pixel whose destination coordinate is non-finite
contributes nothing — the forward output is unchanged under arbitrary changes
of the source values at such pixels (so every other pixel is accumulated
exactly as if the offending pixel were absent), and the accumulator equals
the sum over the finite-destination pixels alone. -/
theorem softsplat_forward_nonfinite_skip (d : Dims) (tenIn tenIn' : Tensor d ℚ)
    (tenFlow : FlowT d.N d.H d.W ℚ)
    (h : ∀ (n : Fin d.N) (y : Fin d.H) (x : Fin d.W),
      destFinite tenFlow n y x → ∀ c : Fin d.C, tenIn n c y x = tenIn' n c y x) :
    softsplat_out d tenIn tenFlow = softsplat_out d tenIn' tenFlow ∧
    ∀ (n : Fin d.N) (c : Fin d.C) (oy : Fin d.H) (ox : Fin d.W),
      softsplat_out d tenIn tenFlow n c oy ox =
        ∑ y : Fin d.H, ∑ x : Fin d.W,
          if destFinite tenFlow n y x then contrib d tenIn tenFlow n c y x oy ox
          else 0 := by
  constructor
  · funext n c oy ox
    refine Finset.sum_congr rfl fun y _ => Finset.sum_congr rfl fun x _ => ?_
    by_cases hf : destFinite tenFlow n y x
    · exact contrib_congr_finite d tenIn tenIn' tenFlow n c y x oy ox (h n y x hf c)
    · rw [contrib_nonfinite d tenIn tenFlow n c y x oy ox hf,
        contrib_nonfinite d tenIn' tenFlow n c y x oy ox hf]
  · intro n c oy ox
    refine Finset.sum_congr rfl fun y _ => Finset.sum_congr rfl fun x _ => ?_
    by_cases hf : destFinite tenFlow n y x
    · rw [if_pos hf]
    · rw [if_neg hf, contrib_nonfinite d tenIn tenFlow n c y x oy ox hf]

/-- A flow field non-finite exactly at the pixel `x = 0` (horizontal channel
NaN there), finite and zero elsewhere. -/
def mixedFlow : FlowT 1 1 2 ℚ := fun _ ch _ x =>
  if (x : ℕ) = 0 ∧ (ch : ℕ) = 0 then none else some 0

def tenA5 : Tensor ⟨1, 1, 1, 2⟩ ℚ := fun _ _ _ x => if (x : ℕ) = 0 then 5 else 3

def tenA9 : Tensor ⟨1, 1, 1, 2⟩ ℚ := fun _ _ _ x => if (x : ℕ) = 0 then 9 else 3

theorem softsplat_forward_nonfinite_skip_witness :
    (∀ (n : Fin 1) (y : Fin 1) (x : Fin 2), destFinite mixedFlow n y x →
      ∀ c : Fin 1, tenA5 n c y x = tenA9 n c y x) ∧
    (softsplat_out ⟨1, 1, 1, 2⟩ tenA5 mixedFlow =
        softsplat_out ⟨1, 1, 1, 2⟩ tenA9 mixedFlow ∧
      ∀ (n : Fin 1) (c : Fin 1) (oy : Fin 1) (ox : Fin 2),
        softsplat_out ⟨1, 1, 1, 2⟩ tenA5 mixedFlow n c oy ox =
          ∑ y : Fin 1, ∑ x : Fin 2,
            if destFinite mixedFlow n y x then
              contrib ⟨1, 1, 1, 2⟩ tenA5 mixedFlow n c y x oy ox
            else 0) := by
  have hh : ∀ (n : Fin 1) (y : Fin 1) (x : Fin 2), destFinite mixedFlow n y x →
      ∀ c : Fin 1, tenA5 n c y x = tenA9 n c y x := by
    intro n y x hf c
    by_cases hx : (x : ℕ) = 0
    · exfalso
      have h0 := hf.1
      simp [mixedFlow, hx] at h0
    · simp [tenA5, tenA9, hx]
  exact ⟨hh, softsplat_forward_nonfinite_skip ⟨1, 1, 1, 2⟩ tenA5 tenA9 mixedFlow hh⟩

-- The backward kernels (`softsplat_ingrad` / `softsplat_flowgrad`,
-- lines 1570–1624 and 1656–1728) ----------------------------------------------

section Backward

variable {α : Type} [LinearOrderedField α] [FloorRing α]

/-- A bounds-checked gather `VALUE_4(t, intN, c, cY, cX) * w` from one corner
(zero when the corner is out of bounds). -/
def gatherCorner (d : Dims) (t : Tensor d α) (n : Fin d.N) (c : Fin d.C)
    (cX cY : ℤ) (w : α) : α :=
  if h : inBounds d cX cY then
    t n c ⟨cY.toNat, by unfold inBounds at h; omega⟩ ⟨cX.toNat, by unfold inBounds at h; omega⟩ * w
  else 0

/-- `softsplat_ingrad`: per source pixel, the gather of the four destination
output-gradient cells with the forward pass's bilinear weights.  `tenIngrad`
is allocated with `new_empty` — uninitialized memory, modelled by `init` —
and the kernel's early `return` on a non-finite destination fires BEFORE the
final `tenIngrad[intIndex] = fltIngrad` write, so such cells keep whatever
`init` held. -/
def softsplat_ingrad (d : Dims) (tenFlow : FlowT d.N d.H d.W α)
    (tenOutgrad : Tensor d α) (init : Tensor d α) : Tensor d α :=
  fun n c y x =>
    match destX tenFlow n y x, destY tenFlow n y x with
    | some fltX, some fltY =>
      gatherCorner d tenOutgrad n c (intNorthwestX fltX) (intNorthwestY fltY)
          (fltNorthwest fltX fltY) +
        gatherCorner d tenOutgrad n c (intNortheastX fltX) (intNortheastY fltY)
          (fltNortheast fltX fltY) +
        gatherCorner d tenOutgrad n c (intSouthwestX fltX) (intSouthwestY fltY)
          (fltSouthwest fltX fltY) +
        gatherCorner d tenOutgrad n c (intSoutheastX fltX) (intSoutheastY fltY)
          (fltSoutheast fltX fltY)
    | _, _ => init n c y x

/-- The four weight derivatives of `softsplat_flowgrad`: channel 0
differentiates the weights along `fltX`, channel 1 along `fltY`. -/
def dWeights (fc : Fin 2) (fltX fltY : α) : α × α × α × α :=
  if (fc : ℕ) = 0 then
    ((-1) * ((intSoutheastY fltY : ℤ) - fltY),
      (1) * ((intSouthwestY fltY : ℤ) - fltY),
      (-1) * (fltY - (intNortheastY fltY : ℤ)),
      (1) * (fltY - (intNorthwestY fltY : ℤ)))
  else
    (((intSoutheastX fltX : ℤ) - fltX) * (-1),
      (fltX - (intSouthwestX fltX : ℤ)) * (-1),
      ((intNortheastX fltX : ℤ) - fltX) * (1),
      (fltX - (intNorthwestX fltX : ℤ)) * (1))

/-- `softsplat_flowgrad`: per flow cell, the channel reduction of
`outgrad * source * dweight` over the four (bounds-checked) corners.
`tenFlowgrad` is likewise `new_empty`, and the early `return` on a non-finite
destination leaves `init`'s contents in place. -/
def softsplat_flowgrad (d : Dims) (tenIn : Tensor d α)
    (tenFlow : FlowT d.N d.H d.W α) (tenOutgrad : Tensor d α)
    (init : Fin d.N → Fin 2 → Fin d.H → Fin d.W → α) :
    Fin d.N → Fin 2 → Fin d.H → Fin d.W → α :=
  fun n fc y x =>
    match destX tenFlow n y x, destY tenFlow n y x with
    | some fltX, some fltY =>
      let w := dWeights fc fltX fltY
      ∑ ch : Fin d.C,
        (gatherCorner d tenOutgrad n ch (intNorthwestX fltX) (intNorthwestY fltY)
            (tenIn n ch y x * w.1) +
          gatherCorner d tenOutgrad n ch (intNortheastX fltX) (intNortheastY fltY)
            (tenIn n ch y x * w.2.1) +
          gatherCorner d tenOutgrad n ch (intSouthwestX fltX) (intSouthwestY fltY)
            (tenIn n ch y x * w.2.2.1) +
          gatherCorner d tenOutgrad n ch (intSoutheastX fltX) (intSoutheastY fltY)
            (tenIn n ch y x * w.2.2.2))
    | _, _ => init n fc y x

end Backward

/-- The all-NaN flow and two "uninitialized buffer" states. -/
def nanFlow : FlowT 1 1 1 ℚ := fun _ _ _ _ => none

def garbage7 : Tensor ⟨1, 1, 1, 1⟩ ℚ := fun _ _ _ _ => 7

def garbage9 : Fin 1 → Fin 2 → Fin 1 → Fin 1 → ℚ := fun _ _ _ _ => 9

def zeroGrad : Tensor ⟨1, 1, 1, 1⟩ ℚ := fun _ _ _ _ => 0

def zeroIn : Tensor ⟨1, 1, 1, 1⟩ ℚ := fun _ _ _ _ => 0

/-- Claim C2's divergence, evaluated: with a non-finite flow at a pixel, the
backward kernels return early before writing, so the `new_empty` buffers'
prior contents (7 and 9 here) are returned as the "gradients" — not the zeros
the claim (and the spec's mirror-the-forward-skip requirement) promises. -/
theorem softsplat_backward_nonfinite_garbage :
    softsplat_ingrad ⟨1, 1, 1, 1⟩ nanFlow zeroGrad garbage7 0 0 0 0 = 7 ∧
    softsplat_flowgrad ⟨1, 1, 1, 1⟩ zeroIn nanFlow zeroGrad garbage9 0 0 0 0 = 9 ∧
    (7 : ℚ) ≠ 0 ∧ (9 : ℚ) ≠ 0 :=
  ⟨rfl, rfl, by norm_num, by norm_num⟩

-- The multi-frame splat compositor (`forwarp_mframe_mask`, lines 1766–1796) ---

/-- torch `Tensor.clip(lo, hi)`. -/
def clipTo {α : Type} [LinearOrder α] (lo hi v : α) : α := min (max v lo) hi

/-- `one_fdir`: concatenate the metric-and-time-weighted image channels with
the weight channel `td * exp(clip(metric, -20, 20))`, splat the augmented
tensor, and return the weighted channels together with the splatted weight
channel plus `0.0000001`. -/
noncomputable def one_fdir (d : Dims) (tenIn : Tensor d ℝ)
    (tenFlow : FlowT d.N d.H d.W ℝ) (td : ℝ)
    (tenMetric : Fin d.N → Fin d.H → Fin d.W → ℝ) :
    Tensor d ℝ × (Fin d.N → Fin d.H → Fin d.W → ℝ) :=
  let aug : Tensor ⟨d.N, d.C + 1, d.H, d.W⟩ ℝ := fun n c y x =>
    if hc : (c : ℕ) < d.C then
      tenIn n ⟨c, hc⟩ y x * td * Real.exp (clipTo (-20) 20 (tenMetric n y x))
    else td * Real.exp (clipTo (-20) 20 (tenMetric n y x))
  let tenOut := softsplat_out ⟨d.N, d.C + 1, d.H, d.W⟩ aug tenFlow
  (fun n c y x => tenOut n ⟨(c : ℕ), Nat.lt_succ_of_lt c.isLt⟩ y x,
    fun n y x => tenOut n ⟨d.C, Nat.lt_succ_self d.C⟩ y x + 0.0000001)

/-- `forwarp_mframe_mask`: sum the per-direction numerators and (epsilon-
augmented) denominators over the `flow_num` directional pairs, divide, and
flag holes where the summed denominator is below `0.00001`. -/
noncomputable def forwarp_mframe_mask (d : Dims) (K : ℕ)
    (tenIn1 : Fin K → Tensor d ℝ) (tenFlow1 : Fin K → FlowT d.N d.H d.W ℝ)
    (t1 : Fin K → ℝ)
    (tenIn2 : Fin K → Tensor d ℝ) (tenFlow2 : Fin K → FlowT d.N d.H d.W ℝ)
    (t2 : Fin K → ℝ)
    (tenMetric1 tenMetric2 : Fin K → Fin d.N → Fin d.H → Fin d.W → ℝ) :
    Tensor d ℝ × (Fin d.N → Fin d.H → Fin d.W → Prop) :=
  let tenOut : Tensor d ℝ := fun n c y x =>
    ∑ i : Fin K,
      ((one_fdir d (tenIn1 i) (tenFlow1 i) (t1 i) (tenMetric1 i)).1 n c y x +
        (one_fdir d (tenIn2 i) (tenFlow2 i) (t2 i) (tenMetric2 i)).1 n c y x)
  let tenNormalize : Fin d.N → Fin d.H → Fin d.W → ℝ := fun n y x =>
    ∑ i : Fin K,
      ((one_fdir d (tenIn1 i) (tenFlow1 i) (t1 i) (tenMetric1 i)).2 n y x +
        (one_fdir d (tenIn2 i) (tenFlow2 i) (t2 i) (tenMetric2 i)).2 n y x)
  (fun n c y x => tenOut n c y x / tenNormalize n y x,
    fun n y x => tenNormalize n y x < 0.00001)

/-- Splat of a single channel (used to phrase the claim's "splatted ...
channels" for comparison with the code). -/
noncomputable def splat1 (N H W : ℕ) (f : Fin N → Fin H → Fin W → ℝ)
    (flow : FlowT N H W ℝ) : Fin N → Fin H → Fin W → ℝ :=
  fun n y x => softsplat_out ⟨N, 1, H, W⟩ (fun n _ y x => f n y x) flow n 0 y x

/-- The claim's per-direction per-pixel weight `time * exp(clip(metric, -20, 20))`. -/
noncomputable def dirWeight {N H W : ℕ} (td : ℝ)
    (m : Fin N → Fin H → Fin W → ℝ) : Fin N → Fin H → Fin W → ℝ :=
  fun n y x => td * Real.exp (clipTo (-20) 20 (m n y x))

/-- Modelled from the claim's words: the sum over all directional splats of
the splatted weight channels — with no epsilon. -/
noncomputable def claimDenominator (d : Dims) (K : ℕ)
    (tenFlow1 : Fin K → FlowT d.N d.H d.W ℝ) (t1 : Fin K → ℝ)
    (tenFlow2 : Fin K → FlowT d.N d.H d.W ℝ) (t2 : Fin K → ℝ)
    (m1 m2 : Fin K → Fin d.N → Fin d.H → Fin d.W → ℝ) :
    Fin d.N → Fin d.H → Fin d.W → ℝ :=
  fun n y x =>
    ∑ i : Fin K,
      (splat1 d.N d.H d.W (dirWeight (t1 i) (m1 i)) (tenFlow1 i) n y x +
        splat1 d.N d.H d.W (dirWeight (t2 i) (m2 i)) (tenFlow2 i) n y x)

/-- Modelled from the claim's words: the sum over all directional splats of
the metric-and-time-weighted image channels. -/
noncomputable def claimNumerator (d : Dims) (K : ℕ)
    (tenIn1 : Fin K → Tensor d ℝ) (tenFlow1 : Fin K → FlowT d.N d.H d.W ℝ)
    (t1 : Fin K → ℝ)
    (tenIn2 : Fin K → Tensor d ℝ) (tenFlow2 : Fin K → FlowT d.N d.H d.W ℝ)
    (t2 : Fin K → ℝ)
    (m1 m2 : Fin K → Fin d.N → Fin d.H → Fin d.W → ℝ) : Tensor d ℝ :=
  fun n c y x =>
    ∑ i : Fin K,
      (splat1 d.N d.H d.W
          (fun n y x => tenIn1 i n c y x * dirWeight (t1 i) (m1 i) n y x)
          (tenFlow1 i) n y x +
        splat1 d.N d.H d.W
          (fun n y x => tenIn2 i n c y x * dirWeight (t2 i) (m2 i) n y x)
          (tenFlow2 i) n y x)

/-- Extracting one channel of a splat is the splat of that channel (the
forward kernel treats channels independently). -/
theorem softsplat_out_channel (N C₂ H W : ℕ) (t₁ : Tensor ⟨N, C₂, H, W⟩ ℝ)
    (f : Fin N → Fin H → Fin W → ℝ) (flow : FlowT N H W ℝ) (c : Fin C₂)
    (hval : ∀ n y x, t₁ n c y x = f n y x) :
    ∀ n oy ox, softsplat_out ⟨N, C₂, H, W⟩ t₁ flow n c oy ox =
      splat1 N H W f flow n oy ox := by
  intro n oy ox
  unfold splat1 softsplat_out
  refine Finset.sum_congr rfl fun y _ => Finset.sum_congr rfl fun x _ => ?_
  unfold contrib
  rcases hX : destX flow n y x with _ | fX <;>
    rcases hY : destY flow n y x with _ | fY <;>
      simp [hX, hY, hval n y x, cornerAdd, inBounds]

theorem one_fdir_fst (d : Dims) (tenIn : Tensor d ℝ)
    (tenFlow : FlowT d.N d.H d.W ℝ) (td : ℝ)
    (m : Fin d.N → Fin d.H → Fin d.W → ℝ) (n : Fin d.N) (c : Fin d.C)
    (y : Fin d.H) (x : Fin d.W) :
    (one_fdir d tenIn tenFlow td m).1 n c y x =
      splat1 d.N d.H d.W (fun n y x => tenIn n c y x * dirWeight td m n y x)
        tenFlow n y x := by
  unfold one_fdir
  refine softsplat_out_channel d.N (d.C + 1) d.H d.W _ _ tenFlow
    ⟨(c : ℕ), Nat.lt_succ_of_lt c.isLt⟩ ?_ n y x
  intro n' y' x'
  rw [dif_pos c.isLt]
  simp [dirWeight, mul_assoc]

theorem one_fdir_snd (d : Dims) (tenIn : Tensor d ℝ)
    (tenFlow : FlowT d.N d.H d.W ℝ) (td : ℝ)
    (m : Fin d.N → Fin d.H → Fin d.W → ℝ) (n : Fin d.N) (y : Fin d.H)
    (x : Fin d.W) :
    (one_fdir d tenIn tenFlow td m).2 n y x =
      splat1 d.N d.H d.W (dirWeight td m) tenFlow n y x + 0.0000001 := by
  unfold one_fdir
  have := softsplat_out_channel d.N (d.C + 1) d.H d.W
    (fun n c y x =>
      if hc : (c : ℕ) < d.C then
        tenIn n ⟨c, hc⟩ y x * td * Real.exp (clipTo (-20) 20 (m n y x))
      else td * Real.exp (clipTo (-20) 20 (m n y x)))
    (dirWeight td m) tenFlow ⟨d.C, Nat.lt_succ_self d.C⟩
    (by
      intro n' y' x'
      simp [dirWeight])
    n y x
  simpa using congrArg (· + (0.0000001 : ℝ)) this

/-- Claim C4 (amended): `forwarp_mframe_mask` divides the summed splatted
weighted channels by the summed splatted weight channels PLUS `1e-7` added
once per directional splat (2K directions), and flags a hole exactly when
that epsilon-augmented denominator — not the bare sum — is below `1e-5`. -/
theorem forwarp_mframe_mask_spec (d : Dims) (K : ℕ)
    (tenIn1 : Fin K → Tensor d ℝ) (tenFlow1 : Fin K → FlowT d.N d.H d.W ℝ)
    (t1 : Fin K → ℝ)
    (tenIn2 : Fin K → Tensor d ℝ) (tenFlow2 : Fin K → FlowT d.N d.H d.W ℝ)
    (t2 : Fin K → ℝ)
    (m1 m2 : Fin K → Fin d.N → Fin d.H → Fin d.W → ℝ) :
    (forwarp_mframe_mask d K tenIn1 tenFlow1 t1 tenIn2 tenFlow2 t2 m1 m2).1 =
      (fun n c y x =>
        claimNumerator d K tenIn1 tenFlow1 t1 tenIn2 tenFlow2 t2 m1 m2 n c y x /
          (claimDenominator d K tenFlow1 t1 tenFlow2 t2 m1 m2 n y x +
            (K : ℝ) * (2 * 0.0000001))) ∧
    ∀ (n : Fin d.N) (y : Fin d.H) (x : Fin d.W),
      ((forwarp_mframe_mask d K tenIn1 tenFlow1 t1 tenIn2 tenFlow2 t2 m1 m2).2 n y x ↔
        claimDenominator d K tenFlow1 t1 tenFlow2 t2 m1 m2 n y x +
          (K : ℝ) * (2 * 0.0000001) < 0.00001) := by
  have hnorm : ∀ (n : Fin d.N) (y : Fin d.H) (x : Fin d.W),
      (∑ i : Fin K,
        ((one_fdir d (tenIn1 i) (tenFlow1 i) (t1 i) (m1 i)).2 n y x +
          (one_fdir d (tenIn2 i) (tenFlow2 i) (t2 i) (m2 i)).2 n y x)) =
        claimDenominator d K tenFlow1 t1 tenFlow2 t2 m1 m2 n y x +
          (K : ℝ) * (2 * 0.0000001) := by
    intro n y x
    have step1 : ∀ i : Fin K,
        (one_fdir d (tenIn1 i) (tenFlow1 i) (t1 i) (m1 i)).2 n y x +
          (one_fdir d (tenIn2 i) (tenFlow2 i) (t2 i) (m2 i)).2 n y x =
        (splat1 d.N d.H d.W (dirWeight (t1 i) (m1 i)) (tenFlow1 i) n y x +
          splat1 d.N d.H d.W (dirWeight (t2 i) (m2 i)) (tenFlow2 i) n y x) +
          2 * 0.0000001 := by
      intro i
      rw [one_fdir_snd, one_fdir_snd]
      ring
    rw [Finset.sum_congr rfl fun i _ => step1 i, Finset.sum_add_distrib,
      Finset.sum_const, Finset.card_univ, Fintype.card_fin, nsmul_eq_mul]
    rfl
  have hout : ∀ (n : Fin d.N) (c : Fin d.C) (y : Fin d.H) (x : Fin d.W),
      (∑ i : Fin K,
        ((one_fdir d (tenIn1 i) (tenFlow1 i) (t1 i) (m1 i)).1 n c y x +
          (one_fdir d (tenIn2 i) (tenFlow2 i) (t2 i) (m2 i)).1 n c y x)) =
        claimNumerator d K tenIn1 tenFlow1 t1 tenIn2 tenFlow2 t2 m1 m2 n c y x := by
    intro n c y x
    exact Finset.sum_congr rfl fun i _ => by rw [one_fdir_fst, one_fdir_fst]
  constructor
  · funext n c y x
    simp only [forwarp_mframe_mask]
    rw [hout n c y x, hnorm n y x]
  · intro n y x
    simp only [forwarp_mframe_mask]
    rw [hnorm n y x]

/-- Concrete compositor inputs: 1×1×1×1 frames, zero flows, zero metrics,
time weights `0.0000099` and `0`. -/
noncomputable def wInR : Fin 1 → Tensor ⟨1, 1, 1, 1⟩ ℝ := fun _ _ _ _ _ => 1

noncomputable def wFlowZ : Fin 1 → FlowT 1 1 1 ℝ := fun _ => zeroFlow 1 1 1

noncomputable def wT1 : Fin 1 → ℝ := fun _ => 0.0000099

noncomputable def wT0 : Fin 1 → ℝ := fun _ => 0

noncomputable def wMet : Fin 1 → Fin 1 → Fin 1 → Fin 1 → ℝ := fun _ _ _ _ => 0

theorem clipTo_zero : clipTo (-20 : ℝ) 20 0 = 0 := by
  unfold clipTo
  rw [max_eq_left (by norm_num), min_eq_left (by norm_num)]

theorem splat1_zero_flow (f : Fin 1 → Fin 1 → Fin 1 → ℝ) (n y x : Fin 1) :
    splat1 1 1 1 f (zeroFlow 1 1 1) n y x = f n y x := by
  unfold splat1
  have h := softsplat_out_zero_flow (α := ℝ) ⟨1, 1, 1, 1⟩ fun n _ y x => f n y x
  exact congrFun (congrFun (congrFun (congrFun h n) 0) y) x

/-- Claim C4's counterexample: with both directional time weights summing to
`0.0000099` (metrics zero, zero flows), the claimed denominator — the bare
sum of splatted weight channels — is `0.0000099 < 0.00001`, so the claim
flags the pixel as a hole; the code's denominator is `0.0000099 + 2·1e-7 =
0.0000101`, so `forwarp_mframe_mask` does NOT flag it. -/
theorem forwarp_hole_epsilon_counterexample :
    claimDenominator ⟨1, 1, 1, 1⟩ 1 wFlowZ wT1 wFlowZ wT0 wMet wMet 0 0 0 < 0.00001 ∧
    ¬ (forwarp_mframe_mask ⟨1, 1, 1, 1⟩ 1 wInR wFlowZ wT1 wInR wFlowZ wT0
        wMet wMet).2 0 0 0 := by
  have hw : ∀ (td : ℝ) (i : Fin 1) (n y x : Fin 1), dirWeight td (wMet i) n y x = td := by
    intro td i n y x
    simp [dirWeight, wMet, clipTo_zero, Real.exp_zero]
  have hden : claimDenominator ⟨1, 1, 1, 1⟩ 1 wFlowZ wT1 wFlowZ wT0 wMet wMet 0 0 0 =
      0.0000099 + 0 := by
    unfold claimDenominator
    rw [Fin.sum_univ_one]
    show splat1 1 1 1 (dirWeight (wT1 0) (wMet 0)) (zeroFlow 1 1 1) 0 0 0 +
        splat1 1 1 1 (dirWeight (wT0 0) (wMet 0)) (zeroFlow 1 1 1) 0 0 0 = _
    rw [splat1_zero_flow, splat1_zero_flow, hw, hw]
    rfl
  constructor
  · rw [hden]
    norm_num
  · simp only [forwarp_mframe_mask]
    rw [Fin.sum_univ_one, one_fdir_snd, one_fdir_snd]
    show ¬ (splat1 1 1 1 (dirWeight (wT1 0) (wMet 0)) (zeroFlow 1 1 1) 0 0 0 +
        0.0000001 +
        (splat1 1 1 1 (dirWeight (wT0 0) (wMet 0)) (zeroFlow 1 1 1) 0 0 0 +
          0.0000001) < 0.00001)
    rw [splat1_zero_flow, splat1_zero_flow, hw, hw]
    show ¬ ((0.0000099 : ℝ) + 0.0000001 + ((0 : ℝ) + 0.0000001) < 0.00001)
    norm_num
